import Mathlib

/-!
# YOLO output post-processing (`src/main.cpp`)

A shallow embedding of `clampRect` and `getDetections`, together with the
OpenCV routines they call (`Rect` intersection, `minMaxLoc`, `NMSBoxes`).

Conventions of the embedding.

* `float` and `double` arithmetic is IEEE 754 binary32 and binary64 with
  rounding to nearest, ties to even (`f32`, `f64`): every product, quotient
  and difference of the source is rounded where the source rounds it, each
  operation on its own (no fused multiply-add, no excess precision).  A
  result is an `FVal`: a finite rational, an infinity or NaN.  Signed zeros
  are not distinguished (no result of the program depends on the sign of a
  zero).
* Tensor elements and the two thresholds are finite `float` values, given as
  rationals; a confidence is stored as a rational too, `2 ^ 128` standing
  for an overflow of the product at line 104 to `+∞` (and `-2 ^ 128` for
  `-∞`); it is only compared and returned.
* `int` is 32 bits wide: `Rect::area()` and the sum of two areas wrap
  (`wrap32`), and `static_cast<int>` of a value outside the `int` range, of
  an infinity or of NaN is `INT_MIN`, as on x86.  The coordinate arithmetic
  of `Rect` intersection is OpenCV's overflow-safe one and is written over
  the integers.
* A `cv::Mat` is its list of axis lengths and a row-major element accessor;
  elements are already floating point (one channel).
* A thrown `cv::Exception` is the result `none`.
* `NMSBoxes`, `minMaxLoc` and the `Rect` operations are OpenCV library
  routines; they are modelled after their implementation in OpenCV 4
  (`modules/dnn/src/nms.cpp`, `nms.inl.hpp`, `core/types.hpp`), with the
  default arguments `eta = 1` and `top_k = 0` of the call at line 138.
* The one-shot diagnostic print (`printedInfo`) has no effect on the result
  and is left out.
* The loop body is written once, over the way a column of the row is read
  (`rowBody`): `rowCandidate` reads as the program does, without a check, and
  `rowCandidateChecked` fails on a read outside the row; `getDetectionsChecked`
  is `getDetections` with every read of a row and of the vectors `boxes`,
  `scores`, `classIds` checked.
-/

namespace YoloPost

/-! ## Data model -/

/-- The integer rectangle `cv::Rect`: top-left corner, width and height. -/
structure Rect where
  x : Int
  y : Int
  width : Int
  height : Int
deriving DecidableEq, Repr

/-- The integer size `cv::Size`. -/
structure Size where
  width : Int
  height : Int
deriving DecidableEq, Repr

/-- The record `Detection` of `main.cpp`. -/
structure Detection where
  classId : Int
  confidence : ℚ
  box : Rect
deriving DecidableEq, Repr

/-- A `cv::Mat` with one channel: `size` lists the axis lengths
(`dims = size.length`), `data k` is the element at row-major offset `k`. -/
structure Mat where
  size : List Nat
  data : Nat → ℚ

/-- The two-dimensional matrix `out2d`: `elem i j` is `out2d.ptr<float>(i)[j]`. -/
structure Mat2d where
  rows : Nat
  cols : Nat
  elem : Nat → Nat → ℚ

/-- One entry of the parallel vectors `boxes`, `scores`, `classIds`. -/
structure Candidate where
  box : Rect
  score : ℚ
  classId : Int
deriving DecidableEq, Repr

/-! ## Machine arithmetic -/

/-- A floating-point result: a finite value, an infinity (`neg` for the
negative one) or NaN. -/
inductive FVal where
  | fin (q : ℚ)
  | inf (neg : Bool)
  | nan
deriving DecidableEq, Repr

/-- The power `2 ^ e` for an integer exponent. -/
def pow2 (e : Int) : ℚ :=
  if 0 ≤ e then ((2 ^ e.toNat : Nat) : ℚ) else 1 / ((2 ^ (-e).toNat : Nat) : ℚ)

/-- Halving loop for `⌊log₂ n⌋`: at most `steps` halvings of `n`. -/
def log2Loop : Nat → Nat → Nat
  | 0, _ => 0
  | steps + 1, n => if 2 ≤ n then log2Loop steps (n / 2) + 1 else 0

/-- The binary logarithm `⌊log₂ n⌋` of a natural number (`0` for `n = 0`);
`n` halvings always reach `1`. -/
def floorLog2 (n : Nat) : Nat := log2Loop n n

/-- The binary exponent `⌊log₂ q⌋` of a positive rational. -/
def ilog2 (q : ℚ) : Int :=
  let e0 : Int := (floorLog2 q.num.natAbs : Int) - (floorLog2 q.den : Int)
  if pow2 e0 ≤ q then e0 else e0 - 1

/-- Rounding to the nearest integer, ties to the even one. -/
def roundHalfEven (q : ℚ) : Int :=
  let f := ⌊q⌋
  if q - f < 1 / 2 then f
  else if 1 / 2 < q - f then f + 1
  else if f % 2 = 0 then f else f + 1

/-- Rounding to the nearest value of a binary format with `p` bits of
precision and least normal exponent `emin` (subnormals below it), ties to
even, the exponent unbounded above. -/
def roundBin (p : Nat) (emin : Int) (q : ℚ) : ℚ :=
  if q = 0 then 0
  else
    let e := max (ilog2 |q|) emin
    let ulp := pow2 (e - ((p : Int) - 1))
    (roundHalfEven (q / ulp) : ℚ) * ulp

/-- Rounding to a binary format of greatest exponent `emax`, with overflow
to infinity. -/
def FVal.round (p : Nat) (emin emax : Int) (q : ℚ) : FVal :=
  let r := roundBin p emin q
  if pow2 (emax + 1) ≤ r then FVal.inf false
  else if r ≤ -pow2 (emax + 1) then FVal.inf true
  else FVal.fin r

/-- Rounding to `float` (binary32). -/
def f32 (q : ℚ) : FVal := FVal.round 24 (-126) 127 q

/-- Rounding to `double` (binary64). -/
def f64 (q : ℚ) : FVal := FVal.round 53 (-1022) 1023 q

/-- Rounding to `float`, the result stored as a rational: `2 ^ 128` stands
for `+∞` and `-2 ^ 128` for `-∞`. -/
def f32Q (q : ℚ) : ℚ :=
  let r := roundBin 24 (-126) q
  if pow2 128 ≤ r then pow2 128 else if r ≤ -pow2 128 then -pow2 128 else r

/-- Floating-point product, rounded by `rnd`. -/
def FVal.mul (rnd : ℚ → FVal) : FVal → FVal → FVal
  | .fin a, .fin b => rnd (a * b)
  | .nan, _ => .nan
  | _, .nan => .nan
  | .inf s, .fin b => if b = 0 then .nan else .inf (xor s (decide (b < 0)))
  | .fin a, .inf s => if a = 0 then .nan else .inf (xor s (decide (a < 0)))
  | .inf s, .inf s' => .inf (xor s s')

/-- Floating-point difference, rounded by `rnd`. -/
def FVal.sub (rnd : ℚ → FVal) : FVal → FVal → FVal
  | .fin a, .fin b => rnd (a - b)
  | .nan, _ => .nan
  | _, .nan => .nan
  | .inf s, .fin _ => .inf s
  | .fin _, .inf s => .inf (!s)
  | .inf s, .inf s' => if s = s' then .nan else .inf s

/-- Floating-point quotient, rounded by `rnd`; a zero divisor is `+0`. -/
def FVal.div (rnd : ℚ → FVal) : FVal → FVal → FVal
  | .fin a, .fin b =>
    if b = 0 then (if a = 0 then .nan else .inf (decide (a < 0))) else rnd (a / b)
  | .nan, _ => .nan
  | _, .nan => .nan
  | .inf s, .fin b => .inf (xor s (decide (b < 0)))
  | .fin _, .inf _ => .fin 0
  | .inf _, .inf _ => .nan

/-- The comparison `a <= b` of a floating-point value with a finite one;
false on NaN. -/
def FVal.le (a : FVal) (b : ℚ) : Bool :=
  match a with
  | .fin q => decide (q ≤ b)
  | .inf s => s
  | .nan => false

/-- Conversion of a `double` to `float`. -/
def FVal.toF32 : FVal → FVal
  | .fin q => f32 q
  | v => v

/-- Reduction of an integer to the 32-bit two's-complement range. -/
def wrap32 (z : Int) : Int := (z + 2147483648) % 4294967296 - 2147483648

/-- Conversion `static_cast<int>(float)`: truncation toward zero, and
`INT_MIN` for a value out of range, an infinity or NaN. -/
def toInt : FVal → Int
  | .fin q =>
    let z := Int.tdiv q.num q.den
    if -2147483648 ≤ z ∧ z ≤ 2147483647 then z else -2147483648
  | _ => -2147483648

/-- The quotient `static_cast<float>(a) / static_cast<float>(b)` of two
`int` values (lines 89-90). -/
def scaleOf (a b : Int) : FVal := FVal.div f32 (f32 a) (f32 b)

/-! ## OpenCV rectangle operations -/

/-- The default rectangle `Rect()`. -/
def Rect.zero : Rect := ⟨0, 0, 0, 0⟩

/-- The product `Rect::area()`, an `int`. -/
def Rect.area (r : Rect) : Int := wrap32 (r.width * r.height)

/-- Intersection `a & b` of `cv::Rect`: the overlap, or `Rect()` when the
overlap has non-positive width or height. -/
def Rect.inter (a b : Rect) : Rect :=
  let x1 := max a.x b.x
  let y1 := max a.y b.y
  let w := min (a.x + a.width) (b.x + b.width) - x1
  let h := min (a.y + a.height) (b.y + b.height) - y1
  if w ≤ 0 ∨ h ≤ 0 then Rect.zero else ⟨x1, y1, w, h⟩

/-- The helper `clampRect` (main.cpp lines 34-38). -/
def clampRect (r : Rect) (sz : Size) : Rect :=
  let img : Rect := ⟨0, 0, sz.width, sz.height⟩
  let clipped := r.inter img
  if clipped.area > 0 then clipped else Rect.zero

/-- The function `cv::jaccardDistance` on integer rectangles, a `double`:
`1.0 - Aab / (Aa + Ab - Aab)` with `Aa + Ab` an `int` sum and `Aab` a
`double`. -/
def jaccardDistance (a b : Rect) : FVal :=
  let Aa := a.area
  let Ab := b.area
  if wrap32 (Aa + Ab) ≤ 0 then FVal.fin 0
  else
    let Aab : ℚ := ((a.inter b).area : ℚ)
    FVal.sub f64 (FVal.fin 1)
      (FVal.div f64 (FVal.fin Aab) (FVal.sub f64 (FVal.fin (wrap32 (Aa + Ab) : ℚ)) (FVal.fin Aab)))

/-- The overlap `rectOverlap` used by `NMSBoxes`, a `float`:
`1.f - static_cast<float>(jaccardDistance(a, b))`. -/
def rectOverlap (a b : Rect) : FVal :=
  FVal.sub f32 (FVal.fin 1) (jaccardDistance a b).toF32

/-! ## OpenCV `minMaxLoc` and `NMSBoxes` -/

/-- Scan of `minMaxLoc` for the maximum: `best` at position `loc` so far,
`i` is the position of the next element; a later element replaces the
maximum only when strictly greater. -/
def maxScan : List ℚ → ℚ → Nat → Nat → ℚ × Nat
  | [], best, loc, _ => (best, loc)
  | v :: vs, best, loc, i =>
    if v > best then maxScan vs v i (i + 1) else maxScan vs best loc (i + 1)

/-- The call `minMaxLoc(scoresMat, nullptr, &maxClsScore, nullptr, &maxLoc)`
on a one-row matrix: the maximum and the column of its first occurrence. -/
def minMaxLoc : List ℚ → ℚ × Nat
  | [] => (0, 0)
  | v :: vs => maxScan vs v 0 1

/-- Insertion of `a` in front of a list sorted by descending `key`, where
`a` preceded all its elements in the input: `a` goes after the elements
with a strictly greater key only. -/
def insertDesc {α : Type} (key : α → ℚ) (a : α) : List α → List α
  | [] => [a]
  | b :: l => if key b > key a then b :: insertDesc key a l else a :: b :: l

/-- The call `std::stable_sort(.., SortScorePairDescend)`: the stable sort
by descending key. -/
def stableSortDesc {α : Type} (key : α → ℚ) : List α → List α
  | [] => []
  | a :: l => insertDesc key a (stableSortDesc key l)

/-- The helper `GetMaxScoreIndex` of OpenCV (`top_k = 0`): the pairs
`(scores[i], i)` with `scores[i] > threshold`, stably sorted by descending
score. -/
def GetMaxScoreIndex (scores : List ℚ) (threshold : ℚ) : List (ℚ × Nat) :=
  stableSortDesc Prod.fst
    ((List.range scores.length).filterMap fun i =>
      if scores.getD i 0 > threshold then some (scores.getD i 0, i) else none)

/-- The loop of OpenCV's `NMSFast_` (`eta = 1`, `top_k = 0`): each index, in
sorted order, is kept when its overlap with every index kept so far is at
most `nms_threshold`. -/
def NMSFast (bboxes : List Rect) (scores : List ℚ) (score_threshold nms_threshold : ℚ) :
    List Nat :=
  (GetMaxScoreIndex scores score_threshold).foldl
    (fun indices p =>
      if indices.all fun kept_idx =>
          (rectOverlap (bboxes.getD p.2 Rect.zero) (bboxes.getD kept_idx Rect.zero)).le
            nms_threshold
      then indices ++ [p.2] else indices)
    []

/-- The library call `cv::dnn::NMSBoxes(bboxes, scores, score_threshold,
nms_threshold, indices)`.  It asserts `bboxes.size() == scores.size()`,
`score_threshold >= 0` and `nms_threshold >= 0` (a failed assertion throws:
`none`), then runs `NMSFast_`. -/
def NMSBoxes (bboxes : List Rect) (scores : List ℚ) (score_threshold nms_threshold : ℚ) :
    Option (List Nat) :=
  if bboxes.length = scores.length ∧ 0 ≤ score_threshold ∧ 0 ≤ nms_threshold then
    some (NMSFast bboxes scores score_threshold nms_threshold)
  else none

/-! ## `getDetections` -/

/-- The test `Mat::empty()`: no axes or no elements. -/
def Mat.empty (m : Mat) : Bool := m.size.length == 0 || m.size.prod == 0

/-- Lines 45-65 of `getDetections`: the candidates-by-attributes matrix
`out2d`, or `none` where the function returns the empty list at once.
`reshape(1, d1)` gives `d1` rows of `total / d1` elements; `.t()` swaps the
axes. -/
def out2dOf (output : Mat) : Option Mat2d :=
  match output.size with
  | [d0, d1, d2] =>
    if d0 ≠ 1 then none
    else
      let c := output.size.prod / d1
      if d1 > d2 then some ⟨d1, c, fun i j => output.data (i * c + j)⟩
      else some ⟨c, d1, fun i j => output.data (j * c + i)⟩
  | [r, c] => some ⟨r, c, fun i j => output.data (i * c + j)⟩
  | _ => none

/-- The reads `row[j]` of the columns listed, in order. -/
def readCols {M : Type → Type} [Monad M] (read : Nat → M ℚ) : List Nat → M (List ℚ)
  | [] => pure []
  | j :: js => read j >>= fun v => readCols read js >>= fun vs => pure (v :: vs)

/-- The body of the per-row loop (lines 93-134), for a row of `cols`
columns whose column `j` is read by `read j`: the candidate pushed onto
`boxes`, `scores`, `classIds`, or `none` when the row is skipped
(`continue`).  `sx` and `sy` are the scale factors of lines 89-90. -/
def rowBody {M : Type → Type} [Monad M] (read : Nat → M ℚ) (cols : Nat) (orig : Size)
    (confThreshold : ℚ) (sx sy : FVal) (isYOLOv8Layout : Bool) : M (Option Candidate) :=
  let clsStart := if isYOLOv8Layout then 4 else 5
  (if isYOLOv8Layout then pure 1 else read 4) >>= fun obj =>
  if !isYOLOv8Layout && decide (obj ≤ f32Q (1 / 1000000)) then pure none
  else
    readCols read ((List.range (cols - clsStart)).map fun j => clsStart + j) >>= fun scoresMat =>
    let m := minMaxLoc scoresMat
    let conf := f32Q (obj * m.1)
    if conf < confThreshold then pure none
    else
      read 0 >>= fun x => read 1 >>= fun y => read 2 >>= fun w => read 3 >>= fun h =>
      let normalized := decide (x ≤ 3 / 2) && decide (y ≤ 3 / 2) && decide (w ≤ 3 / 2)
        && decide (h ≤ 3 / 2)
      let cx_px :=
        if normalized then FVal.mul f32 (.fin x) (f32 orig.width) else FVal.mul f32 (.fin x) sx
      let cy_px :=
        if normalized then FVal.mul f32 (.fin y) (f32 orig.height) else FVal.mul f32 (.fin y) sy
      let w_px :=
        if normalized then FVal.mul f32 (.fin w) (f32 orig.width) else FVal.mul f32 (.fin w) sx
      let h_px :=
        if normalized then FVal.mul f32 (.fin h) (f32 orig.height) else FVal.mul f32 (.fin h) sy
      let left := toInt (FVal.sub f32 cx_px (FVal.div f32 w_px (.fin 2)))
      let top := toInt (FVal.sub f32 cy_px (FVal.div f32 h_px (.fin 2)))
      let ww := toInt w_px
      let hh := toInt h_px
      let box := clampRect ⟨left, top, ww, hh⟩ orig
      if box.area ≤ 0 then pure none else pure (some ⟨box, conf, (m.2 : Int)⟩)

/-- The loop body for row `i` of `out2d`, as the program runs it: column `j`
is read at `out2d.ptr<float>(i)[j]` without any check. -/
def rowCandidate (out2d : Mat2d) (orig : Size) (confThreshold : ℚ) (sx sy : FVal)
    (isYOLOv8Layout : Bool) (i : Nat) : Option Candidate :=
  Id.run (rowBody (fun j => (pure (out2d.elem i j) : Id ℚ)) out2d.cols orig confThreshold sx sy
    isYOLOv8Layout)

/-- The loop body for row `i` of `out2d` with every read checked against
the row: `none` when some column read lies outside `0 .. cols - 1`. -/
def rowCandidateChecked (out2d : Mat2d) (orig : Size) (confThreshold : ℚ) (sx sy : FVal)
    (isYOLOv8Layout : Bool) (i : Nat) : Option (Option Candidate) :=
  rowBody (fun j => if j < out2d.cols then some (out2d.elem i j) else none) out2d.cols orig
    confThreshold sx sy isYOLOv8Layout

/-- The detection built from entry `idx` of the three parallel vectors
(line 141). -/
def detectionAt (cands : List Candidate) (idx : Nat) : Detection :=
  ⟨(cands.map Candidate.classId).getD idx 0, (cands.map Candidate.score).getD idx 0,
    (cands.map Candidate.box).getD idx Rect.zero⟩

/-- Running a checked step on each element of a list in order: `none` as
soon as one step faults. -/
def forEachChecked {α β : Type} (f : α → Option β) : List α → Option (List β)
  | [] => some []
  | a :: as => f a >>= fun b => forEachChecked f as >>= fun bs => some (b :: bs)

/-- The detection built from entry `idx` of the three parallel vectors, each
of the three reads checked against the length of its vector: `none` when
`idx` is not a valid index. -/
def detectionAtChecked (cands : List Candidate) (idx : Nat) : Option Detection :=
  (cands.map Candidate.classId)[idx]? >>= fun c =>
  (cands.map Candidate.score)[idx]? >>= fun s =>
  (cands.map Candidate.box)[idx]? >>= fun b => some ⟨c, s, b⟩

/-- The function `getDetections` (main.cpp lines 40-144).  `none` is the
exception thrown by `NMSBoxes` on a failed assertion. -/
def getDetections (output : Mat) (orig : Size) (confThreshold nmsThreshold : ℚ)
    (inputW inputH : Int) (isYOLOv8Layout : Bool) : Option (List Detection) :=
  if output.empty then some []
  else
    match out2dOf output with
    | none => some []
    | some out2d =>
      if out2d.cols < 6 then some []
      else
        let sx := scaleOf orig.width inputW
        let sy := scaleOf orig.height inputH
        let cands := (List.range out2d.rows).filterMap
          (rowCandidate out2d orig confThreshold sx sy isYOLOv8Layout)
        match NMSBoxes (cands.map Candidate.box) (cands.map Candidate.score)
            confThreshold nmsThreshold with
        | none => none
        | some keep => some (keep.map (detectionAt cands))

/-- The function `getDetections` with every read of a row element and of a
vector entry checked: the outer `none` is a read out of range, the inner
result is that of `getDetections`. -/
def getDetectionsChecked (output : Mat) (orig : Size) (confThreshold nmsThreshold : ℚ)
    (inputW inputH : Int) (isYOLOv8Layout : Bool) : Option (Option (List Detection)) :=
  if output.empty then some (some [])
  else
    match out2dOf output with
    | none => some (some [])
    | some out2d =>
      if out2d.cols < 6 then some (some [])
      else
        let sx := scaleOf orig.width inputW
        let sy := scaleOf orig.height inputH
        forEachChecked (rowCandidateChecked out2d orig confThreshold sx sy isYOLOv8Layout)
            (List.range out2d.rows) >>= fun pushed =>
        let cands := pushed.filterMap id
        match NMSBoxes (cands.map Candidate.box) (cands.map Candidate.score)
            confThreshold nmsThreshold with
        | none => some none
        | some keep => (forEachChecked (detectionAtChecked cands) keep).map some

/-- A rank-2 tensor with the given rows: each entry is stored as the
`float` nearest to the number written. -/
def matOfRows (rows : List (List ℚ)) (cols : Nat) : Mat :=
  ⟨[rows.length, cols], fun k => f32Q ((rows.flatten).getD k 0)⟩

/-- The one-row tensor of the normalized-path example:
`[cx, cy, w, h] = [0.5, 0.5, 0.2, 0.2]`, class scores `[0.9, 0.1]`. -/
def normalizedExample : Mat := matOfRows [[1/2, 1/2, 1/5, 1/5, 9/10, 1/10]] 6

/-- The example row scaled by 1000. -/
def pixelExample : Mat := matOfRows [[500, 500, 200, 200, 900, 100]] 6

/-- The example row with a box of zero width and height. -/
def degenerateExample : Mat := matOfRows [[1/2, 1/2, 0, 0, 9/10, 1/10]] 6

/-- Two rows with the same box and best class scores 0.9 and 0.6. -/
def twoRowExample : Mat :=
  matOfRows [[1/2, 1/2, 1/5, 1/5, 9/10, 1/10], [1/2, 1/2, 1/5, 1/5, 3/5, 1/10]] 6

/-- Two rows with disjoint boxes and best class scores 0.6 and 0.9. -/
def twoApartExample : Mat :=
  matOfRows [[1/4, 1/4, 1/5, 1/5, 3/5, 1/10], [3/4, 3/4, 1/5, 1/5, 9/10, 1/10]] 6

/-- A tensor of rank 4. -/
def rankFourExample : Mat :=
  ⟨[1, 1, 1, 6], fun k => f32Q ([1/2, 1/2, 1/5, 1/5, 9/10, 1/10].getD k 0)⟩

/-- A tensor of rank 3 with leading dimension 2. -/
def batchTwoExample : Mat := ⟨[2, 6, 1], fun _ => 1/2⟩

/-- A one-row tensor with 5 columns. -/
def fiveColumnExample : Mat := matOfRows [[1/2, 1/2, 1/5, 1/5, 9/10]] 5

/-- The example row with a class score of 2. -/
def logitExample : Mat := matOfRows [[1/2, 1/2, 1/5, 1/5, 2, 1/10]] 6

/-- The example row moved to the bottom-right corner: its box crosses
both image edges. -/
def edgeExample : Mat := matOfRows [[19/20, 19/20, 1/5, 1/5, 9/10, 1/10]] 6

/-- Three far-apart boxes; rows 0 and 2 have the same best class score. -/
def tieExample : Mat :=
  matOfRows [[1/4, 1/4, 1/5, 1/5, 3/5, 1/10], [3/4, 3/4, 1/5, 1/5, 9/10, 1/10],
    [1/4, 3/4, 1/5, 1/5, 3/5, 1/10]] 6

/-! ## Auxiliary definitions for the proofs -/

/-- Greedy selection over any carrier: the loop of `NMSFast` with the test
`overlap <= threshold` abstracted as `ok`; `acc` is the list kept so far. -/
def greedyKeep {α : Type} (ok : α → α → Bool) (l acc : List α) : List α :=
  l.foldl (fun acc a => if acc.all (fun k => ok a k) then acc ++ [a] else acc) acc

/-- The detection made from a candidate. -/
def Candidate.toDetection (c : Candidate) : Detection := ⟨c.classId, c.score, c.box⟩

/-- The candidates pushed by the row loop, in row order. -/
def candidates (out2d : Mat2d) (orig : Size) (confThreshold : ℚ) (sx sy : FVal)
    (isYOLOv8Layout : Bool) : List Candidate :=
  (List.range out2d.rows).filterMap (rowCandidate out2d orig confThreshold sx sy isYOLOv8Layout)

/-- The first class-score column `clsStart`. -/
def clsStart (isYOLOv8Layout : Bool) : Nat := if isYOLOv8Layout then 4 else 5

/-- The objectness `obj` of row `i`. -/
def rowObj (out2d : Mat2d) (isYOLOv8Layout : Bool) (i : Nat) : ℚ :=
  if isYOLOv8Layout then 1 else out2d.elem i 4

/-- The class-score slice `scoresMat` of row `i`. -/
def rowScores (out2d : Mat2d) (isYOLOv8Layout : Bool) (i : Nat) : List ℚ :=
  (List.range (out2d.cols - clsStart isYOLOv8Layout)).map fun j =>
    out2d.elem i (clsStart isYOLOv8Layout + j)

/-- The confidence `conf` of row `i`. -/
def rowConf (out2d : Mat2d) (isYOLOv8Layout : Bool) (i : Nat) : ℚ :=
  f32Q (rowObj out2d isYOLOv8Layout i * (minMaxLoc (rowScores out2d isYOLOv8Layout i)).1)

/-- The test `normalized` of row `i`. -/
def rowNormalized (out2d : Mat2d) (i : Nat) : Bool :=
  decide (out2d.elem i 0 ≤ 3 / 2) && decide (out2d.elem i 1 ≤ 3 / 2)
    && decide (out2d.elem i 2 ≤ 3 / 2) && decide (out2d.elem i 3 ≤ 3 / 2)

/-- The rectangle `Rect(left, top, ww, hh)` for centre `(cx, cy)` and size
`(w, h)` in pixels (lines 124-127): `cx - w / 2.0f` and `cy - h / 2.0f` in
`float`, then the four conversions to `int`. -/
def cornerRect (cx_px cy_px w_px h_px : FVal) : Rect :=
  ⟨toInt (FVal.sub f32 cx_px (FVal.div f32 w_px (.fin 2))),
    toInt (FVal.sub f32 cy_px (FVal.div f32 h_px (.fin 2))), toInt w_px, toInt h_px⟩

/-- The rectangle `Rect(left, top, ww, hh)` of row `i`, before clamping. -/
def rowRawBox (out2d : Mat2d) (orig : Size) (sx sy : FVal) (i : Nat) : Rect :=
  cornerRect
    (if rowNormalized out2d i then FVal.mul f32 (.fin (out2d.elem i 0)) (f32 orig.width)
      else FVal.mul f32 (.fin (out2d.elem i 0)) sx)
    (if rowNormalized out2d i then FVal.mul f32 (.fin (out2d.elem i 1)) (f32 orig.height)
      else FVal.mul f32 (.fin (out2d.elem i 1)) sy)
    (if rowNormalized out2d i then FVal.mul f32 (.fin (out2d.elem i 2)) (f32 orig.width)
      else FVal.mul f32 (.fin (out2d.elem i 2)) sx)
    (if rowNormalized out2d i then FVal.mul f32 (.fin (out2d.elem i 3)) (f32 orig.height)
      else FVal.mul f32 (.fin (out2d.elem i 3)) sy)

/-- The clamped rectangle `box` of row `i`. -/
def rowBox (out2d : Mat2d) (orig : Size) (sx sy : FVal) (i : Nat) : Rect :=
  clampRect (rowRawBox out2d orig sx sy i) orig

/-- The entry read from the three vectors at an index out of range. -/
def Candidate.dflt : Candidate := ⟨Rect.zero, 0, 0⟩

/-- The candidates pushed by the row loop, each with the row it came from. -/
def taggedCandidates (out2d : Mat2d) (orig : Size) (confThreshold : ℚ) (sx sy : FVal)
    (isYOLOv8Layout : Bool) : List (Nat × Candidate) :=
  (List.range out2d.rows).filterMap fun i =>
    (rowCandidate out2d orig confThreshold sx sy isYOLOv8Layout i).map fun c => (i, c)

/-- The test `overlap <= nms_threshold` of `NMSFast` on the boxes of two
candidates. -/
def candOk (nmsThreshold : ℚ) (a b : Candidate) : Bool :=
  (rectOverlap a.box b.box).le nmsThreshold

/-- Suppression at the level of candidates: floor, stable sort, greedy
selection. -/
def suppress (confThreshold nmsThreshold : ℚ) (cands : List Candidate) : List Candidate :=
  greedyKeep (candOk nmsThreshold)
    (stableSortDesc Candidate.score (cands.filter fun c => decide (c.score > confThreshold))) []

/-- One row whose second class score is the larger. -/
def classOneExample : Mat := matOfRows [[1/2, 1/2, 1/5, 1/5, 1/10, 3/5]] 6

/-- Intersection over union of two rectangles in exact arithmetic: the
area of the overlap over the area of the union. -/
def iou (a b : Rect) : ℚ :=
  (((a.inter b).width * (a.inter b).height : Int) : ℚ) /
    ((a.width * a.height + b.width * b.height - (a.inter b).width * (a.inter b).height : Int) : ℚ)

/-- Two rows with the same box, scores 0.9 for class 0 and 0.6 for class 1. -/
def classPairExample : Mat :=
  matOfRows [[1/2, 1/2, 1/5, 1/5, 9/10, 1/10], [1/2, 1/2, 1/5, 1/5, 1/10, 3/5]] 6

/-- One row whose best class score equals the threshold 0.25. -/
def boundaryExample : Mat := matOfRows [[1/2, 1/2, 1/5, 1/5, 1/4, 1/10]] 6

/-- A pixel-scale row whose height `26.666666f` times `sy = 1.6875` rounds
up to `45.0f`. -/
def pixelRoundingExample : Mat :=
  matOfRows [[320, 320, 100, 26666666 / 1000000, 9/10, 1/10]] 6

/-- Two pixel-scale rows with boxes `(0, 0, 29, 10)` and `(11, 0, 29, 10)`,
of intersection over union exactly `9/20`, and best class scores 0.9, 0.6. -/
def overlapTieExample : Mat :=
  matOfRows [[29/2, 5, 29, 10, 9/10, 1/10], [51/2, 5, 29, 10, 3/5, 1/10]] 6

/-- The two rows of `overlapTieExample` with best class scores 0.9 for class
0 and 0.6 for class 1. -/
def overlapTieClassExample : Mat :=
  matOfRows [[29/2, 5, 29, 10, 9/10, 1/10], [51/2, 5, 29, 10, 1/10, 3/5]] 6

/-- Two pixel-scale rows with boxes `(0, 0, 10, 10)` and `(0, 0, 10, 1)`, of
intersection over union exactly `1/10`, and best class scores 0.9, 0.6. -/
def thinOverlapExample : Mat :=
  matOfRows [[5, 5, 10, 10, 9/10, 1/10], [5, 1/2, 10, 1, 3/5, 1/10]] 6

/-- The flag `isYOLOv8Layout` computed by `main` (line 188):
`output.dims == 3 && output.size[1] < output.size[2]`. -/
def isYOLOv8Layout (output : Mat) : Bool :=
  output.size.length == 3 && decide (output.size.getD 1 0 < output.size.getD 2 0)

/-- Whether `getDetections` reaches the else branch of lines 55-58
(reshape, then transpose): rank 3, leading dimension 1 and not `d1 > d2`. -/
def takesTranspose (output : Mat) : Bool :=
  match output.size with
  | [d0, d1, d2] => d0 == 1 && !decide (d1 > d2)
  | _ => false

/-- A rank-3 tensor of shape `[1, 2, 3]` with elements `0, 1, .., 5`. -/
def wideExample : Mat := ⟨[1, 2, 3], fun k => (k : ℚ)⟩

/-- A rank-3 tensor of shape `[1, 6, 6]`. -/
def squareExample : Mat := ⟨[1, 6, 6], fun k => f32Q ((k : ℚ) / 36)⟩

/-! ## Lemmas on the stable sort -/

section SortLemmas
variable {α β : Type}

theorem insertDesc_perm (key : α → ℚ) (a : α) (l : List α) :
    (insertDesc key a l).Perm (a :: l) := by
  induction l with
  | nil => exact List.Perm.refl _
  | cons b l ih =>
    unfold insertDesc
    split
    · exact ((List.Perm.cons b ih).trans (List.Perm.swap a b l))
    · exact List.Perm.refl _

theorem stableSortDesc_perm (key : α → ℚ) (l : List α) : (stableSortDesc key l).Perm l := by
  induction l with
  | nil => exact List.Perm.refl _
  | cons a l ih =>
    exact (insertDesc_perm key a _).trans (List.Perm.cons a ih)

theorem mem_stableSortDesc (key : α → ℚ) (l : List α) (x : α) :
    x ∈ stableSortDesc key l ↔ x ∈ l :=
  (stableSortDesc_perm key l).mem_iff

/-- Inserting an element that precedes (in the relation `R`) all elements of
a list ordered by key-then-`R` keeps it so ordered. -/
theorem insertDesc_pairwise (key : α → ℚ) (R : α → α → Prop) (a : α) (l : List α)
    (hR : ∀ x ∈ l, R a x)
    (hl : l.Pairwise fun p q => key p > key q ∨ (key p = key q ∧ R p q)) :
    (insertDesc key a l).Pairwise fun p q => key p > key q ∨ (key p = key q ∧ R p q) := by
  induction l with
  | nil => simp [insertDesc]
  | cons b l ih =>
    rw [List.pairwise_cons] at hl
    unfold insertDesc
    split
    · rename_i hba
      rw [List.pairwise_cons]
      refine ⟨?_, ih (fun x hx => hR x (List.mem_cons_of_mem _ hx)) hl.2⟩
      intro x hx
      rcases List.mem_cons.mp ((insertDesc_perm key a l).mem_iff.mp hx) with h | h
      · subst h; exact Or.inl hba
      · exact hl.1 x h
    · rename_i hba
      have hle : key b ≤ key a := not_lt.mp hba
      rw [List.pairwise_cons]
      refine ⟨?_, List.pairwise_cons.mpr hl⟩
      intro x hx
      rcases List.mem_cons.mp hx with h | h
      · subst h
        rcases lt_or_eq_of_le hle with h | h
        · exact Or.inl h
        · exact Or.inr ⟨h.symm, hR _ (List.mem_cons_self _ _)⟩
      · have hbx := hl.1 x h
        have hRx := hR x (List.mem_cons_of_mem _ h)
        rcases hbx with hbx | hbx
        · exact Or.inl (lt_of_lt_of_le hbx hle)
        · rcases lt_or_eq_of_le hle with h' | h'
          · exact Or.inl (by rw [← hbx.1]; exact h')
          · exact Or.inr ⟨by rw [← hbx.1, h'], hRx⟩

/-- Stability: the sort orders by descending key, and elements of equal key
keep the order `R` they had in the input. -/
theorem stableSortDesc_pairwise (key : α → ℚ) (R : α → α → Prop) (l : List α)
    (hl : l.Pairwise R) :
    (stableSortDesc key l).Pairwise fun p q => key p > key q ∨ (key p = key q ∧ R p q) := by
  induction l with
  | nil => simp [stableSortDesc]
  | cons a l ih =>
    rw [List.pairwise_cons] at hl
    exact insertDesc_pairwise key R a _
      (fun x hx => hl.1 x ((mem_stableSortDesc key l x).mp hx)) (ih hl.2)

theorem stableSortDesc_sorted (key : α → ℚ) (l : List α) :
    (stableSortDesc key l).Pairwise fun p q => key q ≤ key p := by
  have h := stableSortDesc_pairwise key (fun _ _ => True) l
    (List.pairwise_of_forall (fun _ _ => trivial))
  refine h.imp ?_
  intro p q hpq
  rcases hpq with h1 | h1
  · exact le_of_lt h1
  · exact le_of_eq h1.1.symm

theorem insertDesc_of_forall_le (key : α → ℚ) (a : α) (m : List α)
    (h : ∀ c ∈ m, key c ≤ key a) : insertDesc key a m = a :: m := by
  cases m with
  | nil => rfl
  | cons b l =>
    unfold insertDesc
    rw [if_neg (not_lt.mpr (h b (List.mem_cons_self _ _)))]

/-- A list already in descending key order is left unchanged by the sort. -/
theorem stableSortDesc_eq_self (key : α → ℚ) (l : List α)
    (hl : l.Pairwise fun p q => key q ≤ key p) : stableSortDesc key l = l := by
  induction l with
  | nil => rfl
  | cons a l ih =>
    rw [List.pairwise_cons] at hl
    show insertDesc key a (stableSortDesc key l) = a :: l
    rw [ih hl.2]
    exact insertDesc_of_forall_le key a l hl.1

theorem insertDesc_cons (key : α → ℚ) (a b : α) (l : List α) :
    insertDesc key a (b :: l) =
      if key b > key a then b :: insertDesc key a l else a :: b :: l := rfl

theorem filter_insertDesc (key : α → ℚ) (p : α → Bool) (a : α) (l : List α)
    (hl : l.Pairwise fun x y => key y ≤ key x) :
    (insertDesc key a l).filter p =
      if p a then insertDesc key a (l.filter p) else l.filter p := by
  induction l with
  | nil => cases hpa : p a <;> simp [insertDesc, hpa]
  | cons b l ih =>
    rw [List.pairwise_cons] at hl
    by_cases hba : key b > key a
    · rw [insertDesc_cons, if_pos hba, List.filter_cons, ih hl.2]
      cases hpa : p a <;> cases hpb : p b <;> simp [hpb, List.filter_cons, insertDesc_cons, hba]
    · rw [insertDesc_cons, if_neg hba]
      cases hpa : p a
      · simp [List.filter_cons, hpa]
      · have hle : key b ≤ key a := not_lt.mp hba
        have hall : ∀ c ∈ (b :: l).filter p, key c ≤ key a := by
          intro c hc
          rcases List.mem_cons.mp (List.mem_filter.mp hc).1 with h | h
          · rw [h]; exact hle
          · exact le_trans (hl.1 c h) hle
        have hins := insertDesc_of_forall_le key a _ hall
        simp only [if_true]
        rw [hins, List.filter_cons, if_pos hpa]

/-- Filtering commutes with the stable sort. -/
theorem filter_stableSortDesc (key : α → ℚ) (p : α → Bool) (l : List α) :
    (stableSortDesc key l).filter p = stableSortDesc key (l.filter p) := by
  induction l with
  | nil => rfl
  | cons a l ih =>
    show (insertDesc key a (stableSortDesc key l)).filter p = _
    rw [filter_insertDesc key p a _ (stableSortDesc_sorted key l), ih, List.filter_cons]
    cases hpa : p a <;> simp [stableSortDesc]

theorem insertDesc_map (key : β → ℚ) (g : α → β) (a : α) (l : List α) :
    insertDesc key (g a) (l.map g) = (insertDesc (fun x => key (g x)) a l).map g := by
  induction l with
  | nil => rfl
  | cons b l ih =>
    simp only [List.map_cons, insertDesc]
    split
    · simp [ih]
    · simp

/-- Mapping commutes with the stable sort when the key is read through the
map. -/
theorem stableSortDesc_map (key : β → ℚ) (g : α → β) (l : List α) :
    stableSortDesc key (l.map g) = (stableSortDesc (fun x => key (g x)) l).map g := by
  induction l with
  | nil => rfl
  | cons a l ih =>
    simp only [List.map_cons, stableSortDesc]
    rw [ih, insertDesc_map]

/-- On a list in descending key order, the elements above a floor form a
prefix. -/
theorem filter_floor_initial (key : α → ℚ) (t : ℚ) (l : List α)
    (hl : l.Pairwise fun x y => key y ≤ key x) :
    (l.filter fun x => decide (key x > t)) <+: l := by
  induction l with
  | nil => simp
  | cons a l ih =>
    rw [List.pairwise_cons] at hl
    by_cases ha : key a > t
    · rw [List.filter_cons, if_pos (by simpa using ha)]
      exact (List.prefix_cons_inj a).mpr (ih hl.2)
    · have : (a :: l).filter (fun x => decide (key x > t)) = [] := by
        rw [List.filter_eq_nil_iff]
        intro c hc
        rcases List.mem_cons.mp hc with h | h
        · simpa [h] using ha
        · have := hl.1 c h
          simp only [decide_eq_true_eq, not_lt]
          exact le_trans this (not_lt.mp ha)
      rw [this]
      exact List.nil_prefix

end SortLemmas

/-! ## Lemmas on the greedy selection -/

section GreedyLemmas
variable {α β : Type}

theorem greedyKeep_cons (ok : α → α → Bool) (a : α) (l acc : List α) :
    greedyKeep ok (a :: l) acc =
      greedyKeep ok l
        (if acc.all (fun k => ok a k) then acc ++ [a] else acc) := rfl

theorem greedyKeep_append (ok : α → α → Bool) (l₁ l₂ acc : List α) :
    greedyKeep ok (l₁ ++ l₂) acc = greedyKeep ok l₂ (greedyKeep ok l₁ acc) := by
  unfold greedyKeep
  exact List.foldl_append _ _ _ _

/-- The selection only appends to what is already kept, and what it appends
is a sublist of the input. -/
theorem greedyKeep_eq_append (ok : α → α → Bool) (l acc : List α) :
    ∃ s, s.Sublist l ∧ greedyKeep ok l acc = acc ++ s := by
  induction l generalizing acc with
  | nil => exact ⟨[], List.Sublist.refl _, by simp [greedyKeep]⟩
  | cons a l ih =>
    rw [greedyKeep_cons]
    split
    · obtain ⟨s, hs, he⟩ := ih (acc ++ [a])
      exact ⟨a :: s, hs.cons₂ a, by rw [he]; simp⟩
    · obtain ⟨s, hs, he⟩ := ih acc
      exact ⟨s, hs.cons a, he⟩

theorem greedyKeep_sublist (ok : α → α → Bool) (l : List α) :
    (greedyKeep ok l []).Sublist l := by
  obtain ⟨s, hs, he⟩ := greedyKeep_eq_append ok l []
  rw [he]
  simpa using hs

theorem greedyKeep_extends (ok : α → α → Bool) (l acc : List α) :
    acc <+: greedyKeep ok l acc := by
  obtain ⟨s, _, he⟩ := greedyKeep_eq_append ok l acc
  exact ⟨s, he.symm⟩

/-- Selection over a prefix of the sorted list gives a prefix of the
selection. -/
theorem greedyKeep_initial_mono (ok : α → α → Bool) (l₁ l₂ acc : List α)
    (h : l₁ <+: l₂) : greedyKeep ok l₁ acc <+: greedyKeep ok l₂ acc := by
  obtain ⟨r, rfl⟩ := h
  rw [greedyKeep_append]
  exact greedyKeep_extends ok r _

theorem greedyKeep_map (ok : α → α → Bool) (ok' : β → β → Bool) (f : α → β)
    (hov : ∀ a b, ok' (f a) (f b) = ok a b) (l acc : List α) :
    (greedyKeep ok l acc).map f = greedyKeep ok' (l.map f) (acc.map f) := by
  induction l generalizing acc with
  | nil => rfl
  | cons a l ih =>
    rw [List.map_cons, greedyKeep_cons, greedyKeep_cons, ih]
    have hall : (acc.map f).all (fun k => ok' (f a) k) =
        acc.all (fun k => ok a k) := by
      induction acc with
      | nil => rfl
      | cons b acc ihb => simp only [List.map_cons, List.all_cons, hov, ihb]
    rw [hall]
    split <;> simp

/-- Every kept element overlaps each element kept before it by at most the
threshold. -/
theorem greedyKeep_pairwise (ok : α → α → Bool) (l acc : List α)
    (hacc : acc.Pairwise fun a b => ok b a = true) :
    (greedyKeep ok l acc).Pairwise fun a b => ok b a = true := by
  induction l generalizing acc with
  | nil => exact hacc
  | cons a l ih =>
    rw [greedyKeep_cons]
    split
    · rename_i hall
      apply ih
      rw [List.pairwise_append]
      refine ⟨hacc, List.pairwise_singleton _ _, ?_⟩
      intro x hx y hy
      rw [List.mem_singleton] at hy
      subst hy
      have := (List.all_eq_true.mp hall) x hx
      simpa using this
    · exact ih acc hacc

/-- A list whose elements pairwise overlap by at most the threshold is kept
whole. -/
theorem greedyKeep_eq_self (ok : α → α → Bool) (l acc : List α)
    (h : (acc ++ l).Pairwise fun a b => ok b a = true) :
    greedyKeep ok l acc = acc ++ l := by
  induction l generalizing acc with
  | nil => simp [greedyKeep]
  | cons a l ih =>
    rw [greedyKeep_cons]
    have hall : acc.all (fun k => ok a k) = true := by
      rw [List.all_eq_true]
      intro x hx
      rw [List.pairwise_append] at h
      simpa using h.2.2 x hx a (List.mem_cons_self _ _)
    rw [if_pos hall, ih]
    · simp
    · simpa using h

end GreedyLemmas

/-! ## `NMSBoxes` and `getDetections` at the level of candidates -/

section Characterisation
variable {α β : Type}

theorem filterMap_if (P : α → Prop) [DecidablePred P] (g : α → β) (l : List α) :
    l.filterMap (fun i => if P i then some (g i) else none) =
      (l.filter fun i => decide (P i)).map g := by
  induction l with
  | nil => rfl
  | cons a l ih =>
    by_cases h : P a
    · simp [List.filterMap_cons, List.filter_cons, h, ih]
    · simp [List.filterMap_cons, List.filter_cons, h, ih]

theorem getD_map_dflt (f : α → β) (l : List α) (d : α) (i : Nat) :
    (l.map f).getD i (f d) = f (l.getD i d) := by
  induction l generalizing i with
  | nil => rfl
  | cons a l ih =>
    cases i with
    | zero => rfl
    | succ i => exact ih i

theorem map_getD_range (l : List α) (d : α) :
    (List.range l.length).map (fun i => l.getD i d) = l := by
  apply List.ext_getElem
  · simp
  · intro i h₁ h₂
    simp [h₂]

theorem GetMaxScoreIndex_snd (scores : List ℚ) (t : ℚ) :
    (GetMaxScoreIndex scores t).map Prod.snd =
      stableSortDesc (fun i => scores.getD i 0)
        ((List.range scores.length).filter fun i => decide (scores.getD i 0 > t)) := by
  unfold GetMaxScoreIndex
  rw [filterMap_if (fun i => scores.getD i 0 > t) (fun i => (scores.getD i 0, i)),
    stableSortDesc_map, List.map_map]
  exact List.map_id _

theorem NMSFast_eq_greedyKeep (bboxes : List Rect) (scores : List ℚ) (t n : ℚ) :
    NMSFast bboxes scores t n =
      greedyKeep
        (fun i k => (rectOverlap (bboxes.getD i Rect.zero) (bboxes.getD k Rect.zero)).le n)
        ((GetMaxScoreIndex scores t).map Prod.snd) [] := by
  unfold NMSFast greedyKeep
  rw [List.foldl_map]

theorem detectionAt_eq (cands : List Candidate) (i : Nat) :
    detectionAt cands i = (cands.getD i Candidate.dflt).toDetection := by
  unfold detectionAt Candidate.toDetection
  have h1 : (cands.map Candidate.classId).getD i 0 = (cands.getD i Candidate.dflt).classId :=
    getD_map_dflt Candidate.classId cands Candidate.dflt i
  have h2 : (cands.map Candidate.score).getD i 0 = (cands.getD i Candidate.dflt).score :=
    getD_map_dflt Candidate.score cands Candidate.dflt i
  have h3 : (cands.map Candidate.box).getD i Rect.zero = (cands.getD i Candidate.dflt).box :=
    getD_map_dflt Candidate.box cands Candidate.dflt i
  rw [h1, h2, h3]

/-- The indices kept by `NMSFast`, read back from the candidate list, are the
candidates kept by `suppress`. -/
theorem NMSFast_map_getD (cands : List Candidate) (t n : ℚ) :
    (NMSFast (cands.map Candidate.box) (cands.map Candidate.score) t n).map
        (fun i => cands.getD i Candidate.dflt) = suppress t n cands := by
  have hs : ∀ i, (cands.map Candidate.score).getD i 0 = (cands.getD i Candidate.dflt).score :=
    fun i => getD_map_dflt Candidate.score cands Candidate.dflt i
  have hb : ∀ i, (cands.map Candidate.box).getD i Rect.zero =
      (cands.getD i Candidate.dflt).box :=
    fun i => getD_map_dflt Candidate.box cands Candidate.dflt i
  rw [NMSFast_eq_greedyKeep, GetMaxScoreIndex_snd,
    greedyKeep_map _ (candOk n) (fun i => cands.getD i Candidate.dflt)
      (by intro a b; simp only [candOk, hb])]
  unfold suppress
  congr 1
  simp only [hs, List.length_map]
  rw [← stableSortDesc_map Candidate.score (fun i => cands.getD i Candidate.dflt)]
  congr 1
  have := List.filter_map (f := fun i => cands.getD i Candidate.dflt)
    (p := fun c : Candidate => decide (c.score > t)) (l := List.range cands.length)
  rw [map_getD_range] at this
  rw [this]
  rfl

theorem NMSFast_map_detectionAt (cands : List Candidate) (t n : ℚ) :
    (NMSFast (cands.map Candidate.box) (cands.map Candidate.score) t n).map (detectionAt cands)
      = (suppress t n cands).map Candidate.toDetection := by
  rw [← NMSFast_map_getD, List.map_map]
  apply List.map_congr_left
  intro i _
  exact detectionAt_eq cands i

/-- The result of `getDetections`, with the index bookkeeping of `NMSBoxes`
replaced by selection over the candidates themselves. -/
theorem getDetections_eq (output : Mat) (orig : Size) (t n : ℚ) (inputW inputH : Int)
    (flag : Bool) :
    getDetections output orig t n inputW inputH flag =
      if output.empty then some []
      else
        match out2dOf output with
        | none => some []
        | some out2d =>
          if out2d.cols < 6 then some []
          else if 0 ≤ t ∧ 0 ≤ n then
            some ((suppress t n (candidates out2d orig t
              (scaleOf orig.width inputW) (scaleOf orig.height inputH) flag)).map
                Candidate.toDetection)
          else none := by
  unfold getDetections
  by_cases he : output.empty = true
  · rw [if_pos he, if_pos he]
  · rw [if_neg he, if_neg he]
    cases out2dOf output with
    | none => rfl
    | some m =>
      simp only []
      by_cases hc : m.cols < 6
      · rw [if_pos hc, if_pos hc]
      · rw [if_neg hc, if_neg hc]
        simp only [NMSBoxes, List.length_map, true_and]
        by_cases h : 0 ≤ t ∧ 0 ≤ n
        · rw [if_pos h, if_pos h]
          simp only []
          rw [NMSFast_map_detectionAt]
          rfl
        · rw [if_neg h, if_neg h]

end Characterisation

/-! ## Effect of the confidence threshold on the candidates -/

section Threshold

/-- Unchecked reads of a list of columns give the columns' entries. -/
theorem readCols_id (f : Nat → Id ℚ) (js : List Nat) : readCols f js = js.map f := by
  induction js with
  | nil => rfl
  | cons j js ih =>
    show (readCols f js >>= fun vs => (pure (f j :: vs) : Id _)) = _
    rw [ih]
    rfl

/-- The loop body in terms of the row's objectness, confidence and box. -/
theorem rowCandidate_eq (m : Mat2d) (orig : Size) (t : ℚ) (sx sy : FVal) (flag : Bool) (i : Nat) :
    rowCandidate m orig t sx sy flag i =
      if (!flag && decide (rowObj m flag i ≤ f32Q (1 / 1000000))) = true then none
      else if rowConf m flag i < t then none
      else if (rowBox m orig sx sy i).area ≤ 0 then none
      else some ⟨rowBox m orig sx sy i, rowConf m flag i,
        ((minMaxLoc (rowScores m flag i)).2 : Int)⟩ := by
  cases flag
  · simp only [rowCandidate, rowBody, Id.run, Id.bind_eq, Id.pure_eq, pure_bind, readCols_id,
      rowObj, rowConf, rowBox, rowRawBox, cornerRect, rowNormalized, rowScores, clsStart,
      List.map_map]
    rfl
  · simp only [rowCandidate, rowBody, Id.run, Id.bind_eq, Id.pure_eq, pure_bind, readCols_id,
      rowObj, rowConf, rowBox, rowRawBox, cornerRect, rowNormalized, rowScores, clsStart,
      List.map_map]
    rfl

/-- Raising the threshold only removes candidates: a row's candidate at the
higher threshold is its candidate at the lower one, when its score reaches
the higher threshold. -/
theorem rowCandidate_threshold (m : Mat2d) (orig : Size) (t₁ t₂ : ℚ) (sx sy : FVal) (flag : Bool)
    (i : Nat) (h : t₁ ≤ t₂) :
    rowCandidate m orig t₂ sx sy flag i =
      (rowCandidate m orig t₁ sx sy flag i).filter fun c => decide (t₂ ≤ c.score) := by
  rw [rowCandidate_eq, rowCandidate_eq]
  split
  · rfl
  · by_cases h2 : rowConf m flag i < t₂
    · rw [if_pos h2]
      split
      · rfl
      · split
        · rfl
        · simp [Option.filter, not_le.mpr h2]
    · rw [if_neg h2, if_neg (fun h1 => h2 (lt_of_lt_of_le h1 h))]
      split
      · rfl
      · simp [Option.filter, not_lt.mp h2]

theorem candidates_threshold (m : Mat2d) (orig : Size) (t₁ t₂ : ℚ) (sx sy : FVal) (flag : Bool)
    (h : t₁ ≤ t₂) :
    candidates m orig t₂ sx sy flag =
      (candidates m orig t₁ sx sy flag).filter fun c => decide (t₂ ≤ c.score) := by
  unfold candidates
  rw [List.filter_filterMap]
  congr 1
  funext i
  exact rowCandidate_threshold m orig t₁ t₂ sx sy flag i h

/-- With suppression after filtering, the candidates kept at the higher
threshold are a prefix of those kept at the lower one. -/
theorem suppress_threshold_initial (t₁ t₂ n : ℚ) (h : t₁ < t₂) (cands : List Candidate) :
    suppress t₂ n (cands.filter fun c => decide (t₂ ≤ c.score)) <+: suppress t₁ n cands := by
  unfold suppress
  apply greedyKeep_initial_mono
  have h1 : (cands.filter fun c => decide (t₂ ≤ c.score)).filter
      (fun c => decide (c.score > t₂)) =
      (cands.filter fun c => decide (c.score > t₁)).filter (fun c => decide (c.score > t₂)) := by
    rw [List.filter_filter, List.filter_filter]
    apply List.filter_congr
    intro c _
    by_cases hc : c.score > t₂
    · simp [hc, le_of_lt hc, lt_trans h hc]
    · simp [hc]
  rw [h1, ← filter_stableSortDesc]
  exact filter_floor_initial Candidate.score t₂ _ (stableSortDesc_sorted _ _)

end Threshold

/-! ## The two outcomes of the shape checks -/

/-- Either the tensor is rejected at once (empty, unsupported shape, fewer
than 6 columns) and every call returns the empty list, or it has a normalized
matrix `m` with at least 6 columns and every call runs the row loop and the
suppression on it. -/
theorem getDetections_dichotomy (output : Mat) :
    (∀ orig t n inputW inputH flag,
        getDetections output orig t n inputW inputH flag = some []) ∨
    (∃ m, output.empty = false ∧ out2dOf output = some m ∧ 6 ≤ m.cols ∧
      ∀ orig t n inputW inputH flag,
        getDetections output orig t n inputW inputH flag =
          if 0 ≤ t ∧ 0 ≤ n then
            some ((suppress t n (candidates m orig t
              (scaleOf orig.width inputW) (scaleOf orig.height inputH) flag)).map
                Candidate.toDetection)
          else none) := by
  by_cases he : output.empty = true
  · left
    intro orig t n inputW inputH flag
    rw [getDetections_eq, if_pos he]
  · cases hm : out2dOf output with
    | none =>
      left
      intro orig t n inputW inputH flag
      rw [getDetections_eq, if_neg he, hm]
    | some m =>
      by_cases hc : m.cols < 6
      · left
        intro orig t n inputW inputH flag
        rw [getDetections_eq, if_neg he, hm]
        simp only [if_pos hc]
      · right
        refine ⟨m, by simpa using he, rfl, not_lt.mp hc, ?_⟩
        intro orig t n inputW inputH flag
        rw [getDetections_eq, if_neg he, hm]
        simp only [if_neg hc]

/-! ## What `NMSFast` keeps -/

section Idempotent

theorem getD_length_self {α : Type} (l : List α) (d : α) : l.getD l.length d = d := by
  induction l with
  | nil => rfl
  | cons a l ih => exact ih

/-- What `NMSFast` keeps: indices above the floor, in descending score
order, pairwise overlapping by at most the threshold. -/
theorem NMSFast_spec (bboxes : List Rect) (scores : List ℚ) (t n : ℚ) :
    (∀ x ∈ NMSFast bboxes scores t n, scores.getD x 0 > t) ∧
    (NMSFast bboxes scores t n).Pairwise (fun p q => scores.getD q 0 ≤ scores.getD p 0) ∧
    (NMSFast bboxes scores t n).Pairwise (fun a b =>
      (rectOverlap (bboxes.getD b Rect.zero) (bboxes.getD a Rect.zero)).le n = true) := by
  rw [NMSFast_eq_greedyKeep, GetMaxScoreIndex_snd]
  have hsub := greedyKeep_sublist
    (fun i k => (rectOverlap (bboxes.getD i Rect.zero) (bboxes.getD k Rect.zero)).le n)
    (stableSortDesc (fun i => scores.getD i 0)
      ((List.range scores.length).filter fun i => decide (scores.getD i 0 > t)))
  refine ⟨?_, ?_, ?_⟩
  · intro x hx
    have h1 := (mem_stableSortDesc _ _ _).mp (hsub.subset hx)
    simpa using (List.mem_filter.mp h1).2
  · exact (stableSortDesc_sorted _ _).sublist hsub
  · exact greedyKeep_pairwise _ _ [] List.Pairwise.nil

end Idempotent

/-! ## Tensors with a single candidate row -/

section SingleRow

/-- A tensor whose normalized matrix has a row and a column is not empty. -/
theorem out2dOf_nonempty (output : Mat) (m : Mat2d) (hm : out2dOf output = some m)
    (hr : 1 ≤ m.rows) (hc : 1 ≤ m.cols) : output.empty = false := by
  unfold out2dOf at hm
  unfold Mat.empty
  split at hm
  · rename_i d0 d1 d2 hsz
    split at hm
    · exact absurd hm (by simp)
    · have hprod : output.size.prod ≠ 0 := by
        intro h0
        rw [h0] at hm
        split at hm <;>
          · have := Option.some.inj hm
            subst this
            simp at hr hc
      simp [hsz] at hprod ⊢
      omega
  · rename_i r c hsz
    have := Option.some.inj hm
    subst this
    simp only [hsz]
    simp at hr hc ⊢
    omega
  · exact absurd hm (by simp)

theorem suppress_singleton (t n : ℚ) (c : Candidate) (h : t < c.score) :
    suppress t n [c] = [c] := by
  simp [suppress, h, stableSortDesc, insertDesc, greedyKeep]

/-- The result for a matrix of one row, in terms of that row's candidate. -/
theorem getDetections_single_row (output : Mat) (m : Mat2d) (orig : Size) (t n : ℚ)
    (inputW inputH : Int) (flag : Bool) (hm : out2dOf output = some m) (hrows : m.rows = 1)
    (hcols : 6 ≤ m.cols) (ht : 0 ≤ t) (hn : 0 ≤ n) :
    getDetections output orig t n inputW inputH flag =
      some ((suppress t n (rowCandidate m orig t (scaleOf orig.width inputW)
        (scaleOf orig.height inputH) flag 0).toList).map Candidate.toDetection) := by
  have he := out2dOf_nonempty output m hm (by omega) (by omega)
  rw [getDetections_eq, he, hm]
  simp only [Bool.false_eq_true, if_false, if_neg (not_lt.mpr hcols), if_pos (And.intro ht hn)]
  unfold candidates
  rw [hrows]
  congr 3

end SingleRow

/-! ## Rounding to `float` -/

section Rounding

theorem log2Loop_eq_log (steps n : Nat) (h : n ≤ steps) : log2Loop steps n = Nat.log 2 n := by
  induction steps generalizing n with
  | zero =>
    have : n = 0 := by omega
    subst this
    simp [log2Loop]
  | succ steps ih =>
    unfold log2Loop
    by_cases h2 : 2 ≤ n
    · rw [if_pos h2, ih (n / 2) (by omega)]
      exact (Nat.log_of_one_lt_of_le (by norm_num) h2).symm
    · rw [if_neg h2]
      exact (Nat.log_of_lt (by omega)).symm

theorem floorLog2_eq_log (n : Nat) : floorLog2 n = Nat.log 2 n :=
  log2Loop_eq_log n n (le_refl n)

theorem floorLog2_mono {a b : Nat} (h : a ≤ b) : floorLog2 a ≤ floorLog2 b := by
  rw [floorLog2_eq_log, floorLog2_eq_log]
  exact Nat.log_mono_right h

theorem pow2_pos (e : Int) : 0 < pow2 e := by
  unfold pow2
  split <;> positivity

theorem one_lt_pow2 (e : Int) (h : 1 ≤ e) : 1 < pow2 e := by
  unfold pow2
  rw [if_pos (by omega)]
  have h1 : 1 ≤ e.toNat := by omega
  have : (2 : Nat) ^ 1 ≤ 2 ^ e.toNat := Nat.pow_le_pow_right (by norm_num) h1
  have h2 : (2 : ℚ) ≤ ((2 ^ e.toNat : Nat) : ℚ) := by exact_mod_cast this
  linarith

/-- The binary exponent of a rational in `(0, 1]` is not positive. -/
theorem ilog2_le_zero (q : ℚ) (h0 : 0 < q) (h1 : q ≤ 1) : ilog2 q ≤ 0 := by
  unfold ilog2
  simp only []
  split
  · rename_i hp
    by_contra hc
    have := one_lt_pow2 _ (by omega : 1 ≤ (floorLog2 q.num.natAbs : Int) - (floorLog2 q.den : Int))
    linarith
  · have hnum : q.num.natAbs ≤ q.den := by
      have hq : q.num ≤ q.den := by
        have := Rat.le_def.mp h1
        simpa using this
      have hpos : 0 < q.num := Rat.num_pos.mpr h0
      omega
    have := floorLog2_mono hnum
    omega

/-- Rounding to the nearest integer does not pass an integer bound. -/
theorem roundHalfEven_le (x : ℚ) (K : Int) (h : x ≤ K) : roundHalfEven x ≤ K := by
  unfold roundHalfEven
  simp only []
  have hf : ⌊x⌋ ≤ K := Int.floor_le_iff.mpr (lt_of_le_of_lt h (by linarith))
  rcases lt_or_eq_of_le hf with hlt | heq
  · split_ifs <;> omega
  · have hx : x = K := le_antisymm h (by rw [← heq]; exact Int.floor_le x)
    rw [if_pos (by rw [hx]; simp)]
    exact hf

theorem pow2_neg (e : Int) (h : e < 0) : pow2 e * ((2 ^ (-e).toNat : Nat) : ℚ) = 1 := by
  unfold pow2
  rw [if_neg (by omega)]
  have : ((2 ^ (-e).toNat : Nat) : ℚ) ≠ 0 := by positivity
  field_simp

/-- Rounding to a binary format of at least one bit of precision does not
pass 1. -/
theorem roundBin_le_one (p : Nat) (emin : Int) (hp : 1 ≤ p) (hemin : emin ≤ 0) (q : ℚ)
    (h : q ≤ 1) : roundBin p emin q ≤ 1 := by
  unfold roundBin
  split
  · exact zero_le_one
  · rename_i hq0
    simp only []
    have hulp := pow2_pos (max (ilog2 |q|) emin - ((p : Int) - 1))
    rcases lt_or_gt_of_ne hq0 with hneg | hpos
    · have h1 : roundHalfEven (q / pow2 (max (ilog2 |q|) emin - ((p : Int) - 1))) ≤ 0 := by
        apply roundHalfEven_le
        push_cast
        exact le_of_lt (div_neg_of_neg_of_pos hneg hulp)
      have h2 : ((roundHalfEven (q / pow2 (max (ilog2 |q|) emin - ((p : Int) - 1))) : Int) : ℚ)
          ≤ 0 := by exact_mod_cast h1
      have := mul_nonpos_of_nonpos_of_nonneg h2 (le_of_lt hulp)
      linarith
    · have he : max (ilog2 |q|) emin ≤ 0 := by
        rw [abs_of_pos hpos]
        exact max_le (ilog2_le_zero q hpos h) hemin
      by_cases hneg : max (ilog2 |q|) emin - ((p : Int) - 1) < 0
      · have hK := pow2_neg _ hneg
        have h1 : roundHalfEven (q / pow2 (max (ilog2 |q|) emin - ((p : Int) - 1))) ≤
            ((2 ^ (-(max (ilog2 |q|) emin - ((p : Int) - 1))).toNat : Nat) : Int) := by
          apply roundHalfEven_le
          rw [div_le_iff₀ hulp]
          push_cast at hK ⊢
          rw [mul_comm, hK]
          exact h
        have h2 : ((roundHalfEven (q / pow2 (max (ilog2 |q|) emin - ((p : Int) - 1))) : Int) : ℚ)
            ≤ ((2 ^ (-(max (ilog2 |q|) emin - ((p : Int) - 1))).toNat : Nat) : ℚ) := by
          exact_mod_cast h1
        calc _ ≤ ((2 ^ (-(max (ilog2 |q|) emin - ((p : Int) - 1))).toNat : Nat) : ℚ) *
              pow2 (max (ilog2 |q|) emin - ((p : Int) - 1)) :=
              mul_le_mul_of_nonneg_right h2 (le_of_lt hulp)
          _ = 1 := by rw [mul_comm]; exact hK
      · have hz : max (ilog2 |q|) emin - ((p : Int) - 1) = 0 := by omega
        rw [hz]
        have hone : pow2 0 = 1 := by simp [pow2]
        rw [hone, div_one, mul_one]
        have := roundHalfEven_le q 1 (by simpa using h)
        exact_mod_cast this

/-- A product that is at most 1 is at most 1 after rounding to `float`. -/
theorem f32Q_le_one (q : ℚ) (h : q ≤ 1) : f32Q q ≤ 1 := by
  have hr := roundBin_le_one 24 (-126) (by norm_num) (by norm_num) q h
  have hbig : 1 < pow2 128 := one_lt_pow2 128 (by norm_num)
  unfold f32Q
  simp only []
  split_ifs
  · linarith
  · linarith
  · exact hr

end Rounding

/-! ## The maximum scan of `minMaxLoc` -/

section ArgMax

/-- The scan returns the first position of the maximum over the positions
seen and those still to scan. -/
theorem maxScan_spec (f : Nat → ℚ) (n : Nat) : ∀ (i loc : Nat) (best : ℚ),
    loc < i → f loc = best → (∀ j, j < i → f j ≤ best) → (∀ j, j < loc → f j < best) →
    (maxScan ((List.range' i n).map f) best loc i).2 < i + n ∧
    f (maxScan ((List.range' i n).map f) best loc i).2 =
      (maxScan ((List.range' i n).map f) best loc i).1 ∧
    (∀ j, j < i + n → f j ≤ (maxScan ((List.range' i n).map f) best loc i).1) ∧
    (∀ j, j < (maxScan ((List.range' i n).map f) best loc i).2 →
      f j < (maxScan ((List.range' i n).map f) best loc i).1) := by
  induction n with
  | zero =>
    intro i loc best hloc hbest hle hlt
    exact ⟨by simpa [maxScan] using hloc, by simpa [maxScan] using hbest,
      by simpa [maxScan] using hle, by simpa [maxScan] using hlt⟩
  | succ n ih =>
    intro i loc best hloc hbest hle hlt
    rw [List.range'_succ, List.map_cons]
    unfold maxScan
    have hidx : i + 1 + n = i + (n + 1) := by omega
    split
    · rename_i hgt
      have := ih (i + 1) i (f i) (by omega) rfl
        (by
          intro j hj
          rcases Nat.lt_succ_iff_lt_or_eq.mp hj with h | h
          · exact le_of_lt (lt_of_le_of_lt (hle j h) hgt)
          · rw [h])
        (by
          intro j hj
          exact lt_of_le_of_lt (hle j hj) hgt)
      rw [hidx] at this
      exact this
    · rename_i hgt
      have := ih (i + 1) loc best (by omega) hbest
        (by
          intro j hj
          rcases Nat.lt_succ_iff_lt_or_eq.mp hj with h | h
          · exact hle j h
          · rw [h]; exact not_lt.mp hgt)
        hlt
      rw [hidx] at this
      exact this

/-- The call `minMaxLoc` on the values `f 0, ..., f (N-1)`: the position
returned holds the value returned, no value is greater, and every value at
an earlier position is strictly smaller. -/
theorem minMaxLoc_spec (f : Nat → ℚ) (N : Nat) (hN : 1 ≤ N) :
    (minMaxLoc ((List.range N).map f)).2 < N ∧
    f (minMaxLoc ((List.range N).map f)).2 = (minMaxLoc ((List.range N).map f)).1 ∧
    (∀ j, j < N → f j ≤ (minMaxLoc ((List.range N).map f)).1) ∧
    (∀ j, j < (minMaxLoc ((List.range N).map f)).2 →
      f j < (minMaxLoc ((List.range N).map f)).1) := by
  obtain ⟨k, rfl⟩ : ∃ k, N = k + 1 := ⟨N - 1, by omega⟩
  rw [List.range_eq_range', List.range'_succ, List.map_cons]
  show (maxScan ((List.range' (0 + 1) k).map f) (f 0) 0 1).2 < k + 1 ∧ _
  have := maxScan_spec f k 1 0 (f 0) (by omega) rfl
    (by intro j hj; have : j = 0 := by omega
        rw [this])
    (by intro j hj; omega)
  rw [Nat.add_comm 1 k] at this
  exact this

end ArgMax

/-! ## Class index and best score of a row -/

section RowScore

/-- The class index and best score of a row, for a matrix of at least 6
columns: the index is within the class-score columns, holds the best score,
no class score is greater, and earlier class scores are strictly smaller. -/
theorem rowScores_argmax (m : Mat2d) (flag : Bool) (i : Nat) (hc : 6 ≤ m.cols) :
    (minMaxLoc (rowScores m flag i)).2 < m.cols - clsStart flag ∧
    m.elem i (clsStart flag + (minMaxLoc (rowScores m flag i)).2) =
      (minMaxLoc (rowScores m flag i)).1 ∧
    (∀ j, j < m.cols - clsStart flag →
      m.elem i (clsStart flag + j) ≤ (minMaxLoc (rowScores m flag i)).1) ∧
    (∀ j, j < (minMaxLoc (rowScores m flag i)).2 →
      m.elem i (clsStart flag + j) < (minMaxLoc (rowScores m flag i)).1) := by
  have hN : 1 ≤ m.cols - clsStart flag := by
    unfold clsStart
    split <;> omega
  exact minMaxLoc_spec (fun j => m.elem i (clsStart flag + j)) _ hN

end RowScore

/-! ## Suppression of two candidates -/

section TwoCandidates

theorem Rect.inter_comm (a b : Rect) : a.inter b = b.inter a := by
  unfold Rect.inter
  rw [max_comm a.x b.x, max_comm a.y b.y, min_comm (a.x + a.width) (b.x + b.width),
    min_comm (a.y + a.height) (b.y + b.height)]

/-- The overlap measure is symmetric. -/
theorem rectOverlap_comm (a b : Rect) : rectOverlap a b = rectOverlap b a := by
  unfold rectOverlap jaccardDistance
  simp only []
  rw [Rect.inter_comm a b, add_comm a.area b.area]

theorem suppress_pair (t n : ℚ) (a b : Candidate) (l : List Candidate)
    (hl : l = [a, b] ∨ l = [b, a]) (hab : b.score < a.score) (hb : t < b.score) :
    suppress t n l = if (rectOverlap a.box b.box).le n = true then [a, b] else [a] := by
  have ha : t < a.score := lt_trans hb hab
  rw [rectOverlap_comm a.box b.box]
  rcases hl with rfl | rfl
  · by_cases h : (rectOverlap b.box a.box).le n = true
    · simp [suppress, ha, hb, stableSortDesc, insertDesc, greedyKeep, candOk, h,
        not_lt.mpr (le_of_lt hab)]
    · simp [suppress, ha, hb, stableSortDesc, insertDesc, greedyKeep, candOk, h,
        not_lt.mpr (le_of_lt hab)]
  · by_cases h : (rectOverlap b.box a.box).le n = true
    · simp [suppress, ha, hb, stableSortDesc, insertDesc, greedyKeep, candOk, h, hab]
    · simp [suppress, ha, hb, stableSortDesc, insertDesc, greedyKeep, candOk, h, hab]

end TwoCandidates

/-! ## Where a returned detection comes from -/

section Provenance

theorem mem_suppress (t n : ℚ) (cands : List Candidate) (c : Candidate)
    (h : c ∈ suppress t n cands) : c ∈ cands ∧ t < c.score := by
  unfold suppress at h
  have h1 := (greedyKeep_sublist (candOk n) _).subset h
  have h2 := List.mem_filter.mp ((mem_stableSortDesc _ _ _).mp h1)
  exact ⟨h2.1, by simpa using h2.2⟩

theorem mem_candidates (m : Mat2d) (orig : Size) (t : ℚ) (sx sy : FVal) (flag : Bool) (c : Candidate) :
    c ∈ candidates m orig t sx sy flag ↔
      ∃ i, i < m.rows ∧ rowCandidate m orig t sx sy flag i = some c := by
  unfold candidates
  rw [List.mem_filterMap]
  constructor
  · rintro ⟨i, hi, hc⟩
    exact ⟨i, List.mem_range.mp hi, hc⟩
  · rintro ⟨i, hi, hc⟩
    exact ⟨i, List.mem_range.mpr hi, hc⟩

/-- What the loop body guarantees of a candidate it pushes. -/
theorem rowCandidate_some (m : Mat2d) (orig : Size) (t : ℚ) (sx sy : FVal) (flag : Bool) (i : Nat)
    (c : Candidate) (h : rowCandidate m orig t sx sy flag i = some c) :
    c.box = rowBox m orig sx sy i ∧ 0 < c.box.area ∧ c.score = rowConf m flag i ∧
      t ≤ c.score ∧ c.classId = ((minMaxLoc (rowScores m flag i)).2 : Int) ∧
      (flag = false → f32Q (1 / 1000000) < m.elem i 4) := by
  rw [rowCandidate_eq] at h
  split at h
  · exact absurd h (by simp)
  · rename_i hobj
    split at h
    · exact absurd h (by simp)
    · rename_i hconf
      split at h
      · exact absurd h (by simp)
      · rename_i harea
        have hc := Option.some.inj h
        subst hc
        refine ⟨rfl, not_le.mp harea, rfl, not_lt.mp hconf, rfl, ?_⟩
        intro hf
        subst hf
        simpa [rowObj] using hobj

/-- A rectangle returned by `clampRect` with positive area lies inside the
image and has positive width and height. -/
theorem clampRect_inside (r : Rect) (sz : Size) (h : 0 < (clampRect r sz).area) :
    0 ≤ (clampRect r sz).x ∧ 0 ≤ (clampRect r sz).y ∧
      (clampRect r sz).x + (clampRect r sz).width ≤ sz.width ∧
      (clampRect r sz).y + (clampRect r sz).height ≤ sz.height ∧
      0 < (clampRect r sz).width ∧ 0 < (clampRect r sz).height := by
  unfold clampRect at h ⊢
  simp only [] at h ⊢
  split at h
  · rename_i hpos
    rw [if_pos hpos]
    unfold Rect.inter at hpos ⊢
    simp only [] at hpos ⊢
    split at hpos
    · simp [Rect.zero, Rect.area, wrap32] at hpos
    · rename_i hwh
      rw [if_neg hwh]
      simp only [not_or, not_le] at hwh
      refine ⟨le_max_right _ _, le_max_right _ _, ?_, ?_, hwh.1, hwh.2⟩
      · have := min_le_right (r.x + r.width) (0 + sz.width)
        simp only [] 
        omega
      · have := min_le_right (r.y + r.height) (0 + sz.height)
        simp only []
        omega
  · simp [Rect.zero, Rect.area, wrap32] at h

/-- Every returned detection is the candidate of some row, kept by the
suppression, with a score above the threshold. -/
theorem getDetections_mem (output : Mat) (orig : Size) (t n : ℚ) (inputW inputH : Int)
    (flag : Bool) (dets : List Detection)
    (h : getDetections output orig t n inputW inputH flag = some dets)
    (d : Detection) (hd : d ∈ dets) :
    ∃ m c i, out2dOf output = some m ∧ 6 ≤ m.cols ∧ i < m.rows ∧
      rowCandidate m orig t (scaleOf orig.width inputW)
        (scaleOf orig.height inputH) flag i = some c ∧
      d = c.toDetection ∧ t < c.score ∧ 0 ≤ t ∧ 0 ≤ n := by
  rcases getDetections_dichotomy output with hbad | ⟨m, _, hm, hcols, hgood⟩
  · rw [hbad] at h
    rw [← Option.some.inj h] at hd
    exact absurd hd (List.not_mem_nil _)
  · rw [hgood] at h
    by_cases hn : 0 ≤ t ∧ 0 ≤ n
    · rw [if_pos hn] at h
      rw [← Option.some.inj h] at hd
      obtain ⟨c, hc, rfl⟩ := List.mem_map.mp hd
      obtain ⟨hcm, hct⟩ := mem_suppress t n _ c hc
      obtain ⟨i, hi, hrow⟩ := (mem_candidates _ _ _ _ _ _ c).mp hcm
      exact ⟨m, c, i, hm, hcols, hi, hrow, rfl, hct, hn.1, hn.2⟩
    · rw [if_neg hn] at h
      exact absurd h (by simp)

end Provenance

/-! ## Bound of the confidence -/

section Confidence

theorem maxScan_le (B : ℚ) (vs : List ℚ) (best : ℚ) (loc i : Nat) (hb : best ≤ B)
    (h : ∀ v ∈ vs, v ≤ B) : (maxScan vs best loc i).1 ≤ B := by
  induction vs generalizing best loc i with
  | nil => exact hb
  | cons v vs ih =>
    unfold maxScan
    split
    · exact ih v i (i + 1) (h v (List.mem_cons_self _ _))
        (fun w hw => h w (List.mem_cons_of_mem _ hw))
    · exact ih best loc (i + 1) hb (fun w hw => h w (List.mem_cons_of_mem _ hw))

theorem minMaxLoc_le (B : ℚ) (l : List ℚ) (h0 : 0 ≤ B) (h : ∀ v ∈ l, v ≤ B) :
    (minMaxLoc l).1 ≤ B := by
  cases l with
  | nil => exact h0
  | cons v vs =>
    exact maxScan_le B vs v 0 1 (h v (List.mem_cons_self _ _))
      (fun w hw => h w (List.mem_cons_of_mem _ hw))

theorem f32Q_eps_pos : 0 < f32Q (1 / 1000000) := by decide!

theorem clsStart_cases (flag : Bool) : clsStart flag = 4 ∨ clsStart flag = 5 := by
  cases flag
  · exact Or.inr rfl
  · exact Or.inl rfl

/-- A row whose objectness and class scores are at most 1 has confidence at
most 1, when it passes the objectness test. -/
theorem rowConf_le_one (m : Mat2d) (flag : Bool) (i : Nat) (hc : 6 ≤ m.cols)
    (hle : ∀ j, 4 ≤ j → j < m.cols → m.elem i j ≤ 1)
    (hobj : flag = false → f32Q (1 / 1000000) < m.elem i 4) :
    rowConf m flag i ≤ 1 := by
  have hmax : (minMaxLoc (rowScores m flag i)).1 ≤ 1 := by
    apply minMaxLoc_le 1 _ zero_le_one
    intro v hv
    unfold rowScores at hv
    obtain ⟨j, hj, rfl⟩ := List.mem_map.mp hv
    have hj2 := List.mem_range.mp hj
    rcases clsStart_cases flag with h | h <;> exact hle _ (by omega) (by omega)
  unfold rowConf rowObj
  apply f32Q_le_one
  cases flag with
  | true => simpa using hmax
  | false =>
    have h1 : (0 : ℚ) < m.elem i 4 := lt_trans f32Q_eps_pos (hobj rfl)
    have h2 := hle 4 (le_refl 4) (by omega)
    simp only [Bool.false_eq_true, if_false]
    calc m.elem i 4 * (minMaxLoc (rowScores m false i)).1
        ≤ m.elem i 4 * 1 := mul_le_mul_of_nonneg_left hmax (le_of_lt h1)
      _ = m.elem i 4 := mul_one _
      _ ≤ 1 := h2

end Confidence

/-! ## Rows of the kept candidates -/

section Order

theorem taggedCandidates_snd (m : Mat2d) (orig : Size) (t : ℚ) (sx sy : FVal) (flag : Bool) :
    (taggedCandidates m orig t sx sy flag).map Prod.snd = candidates m orig t sx sy flag := by
  unfold taggedCandidates candidates
  rw [List.map_filterMap]
  congr 1
  funext i
  cases rowCandidate m orig t sx sy flag i <;> rfl

theorem mem_taggedCandidates (m : Mat2d) (orig : Size) (t : ℚ) (sx sy : FVal) (flag : Bool)
    (p : Nat × Candidate) (h : p ∈ taggedCandidates m orig t sx sy flag) :
    p.1 < m.rows ∧ rowCandidate m orig t sx sy flag p.1 = some p.2 := by
  unfold taggedCandidates at h
  obtain ⟨i, hi, hp⟩ := List.mem_filterMap.mp h
  cases hrow : rowCandidate m orig t sx sy flag i with
  | none => rw [hrow] at hp; exact absurd hp (by simp)
  | some c =>
    rw [hrow] at hp
    have := Option.some.inj hp
    subst this
    exact ⟨List.mem_range.mp hi, hrow⟩

theorem taggedCandidates_pairwise (m : Mat2d) (orig : Size) (t : ℚ) (sx sy : FVal) (flag : Bool) :
    (taggedCandidates m orig t sx sy flag).Pairwise fun p q => p.1 < q.1 := by
  unfold taggedCandidates
  apply List.Pairwise.filterMap _ _ (List.pairwise_lt_range m.rows)
  intro a a' haa b hb b' hb'
  cases hrow : rowCandidate m orig t sx sy flag a with
  | none => rw [hrow] at hb; exact absurd hb (by simp)
  | some c =>
    cases hrow' : rowCandidate m orig t sx sy flag a' with
    | none => rw [hrow'] at hb'; exact absurd hb' (by simp)
    | some c' =>
      rw [hrow] at hb
      rw [hrow'] at hb'
      simp only [Option.map_some', Option.mem_def, Option.some.injEq] at hb hb'
      rw [← hb, ← hb']
      exact haa

/-- The candidates kept by `suppress`, with their rows: a sublist of the
tagged candidates sorted by descending score, rows ascending among equal
scores. -/
theorem suppress_tagged (t n : ℚ) (T : List (Nat × Candidate))
    (hT : T.Pairwise fun p q => p.1 < q.1) :
    ∃ K : List (Nat × Candidate), K.map Prod.snd = suppress t n (T.map Prod.snd) ∧
      (∀ p ∈ K, p ∈ T) ∧
      K.Pairwise fun p q => q.2.score < p.2.score ∨ (p.2.score = q.2.score ∧ p.1 < q.1) := by
  refine ⟨greedyKeep (fun p q : Nat × Candidate => candOk n p.2 q.2)
    (stableSortDesc (fun p => p.2.score) (T.filter fun p => decide (p.2.score > t))) [],
    ?_, ?_, ?_⟩
  · rw [greedyKeep_map (fun p q : Nat × Candidate => candOk n p.2 q.2) (candOk n) Prod.snd
      (by intro a b; rfl), ← stableSortDesc_map Candidate.score Prod.snd]
    unfold suppress
    rw [List.filter_map]
    rfl
  · intro p hp
    have h1 := (greedyKeep_sublist _ _).subset hp
    exact (List.mem_filter.mp ((mem_stableSortDesc _ _ _).mp h1)).1
  · have h0 : (T.filter fun p => decide (p.2.score > t)).Pairwise fun p q => p.1 < q.1 :=
      hT.sublist (List.filter_sublist T)
    have h1 := stableSortDesc_pairwise (fun p : Nat × Candidate => p.2.score)
      (fun p q => p.1 < q.1) _ h0
    exact h1.sublist (greedyKeep_sublist _ _)

end Order

/-! ## Pairwise overlap of the kept candidates -/

section NoDuplicates

theorem suppress_pairwise (t n : ℚ) (cands : List Candidate) :
    (suppress t n cands).Pairwise fun a b => candOk n b a = true := by
  unfold suppress
  exact greedyKeep_pairwise (candOk n) _ [] List.Pairwise.nil

/-- A returned list is empty, or is the suppression of the row candidates
of the normalized matrix, under non-negative thresholds. -/
theorem getDetections_some (output : Mat) (orig : Size) (t n : ℚ) (inputW inputH : Int)
    (flag : Bool) (dets : List Detection)
    (h : getDetections output orig t n inputW inputH flag = some dets) :
    dets = [] ∨ ∃ m, out2dOf output = some m ∧ 6 ≤ m.cols ∧ 0 ≤ t ∧ 0 ≤ n ∧
      dets = (suppress t n (candidates m orig t (scaleOf orig.width inputW)
        (scaleOf orig.height inputH) flag)).map Candidate.toDetection := by
  rcases getDetections_dichotomy output with hbad | ⟨m, _, hm, hcols, hgood⟩
  · rw [hbad] at h
    exact Or.inl (Option.some.inj h).symm
  · rw [hgood] at h
    by_cases hn : 0 ≤ t ∧ 0 ≤ n
    · rw [if_pos hn] at h
      exact Or.inr ⟨m, hm, hcols, hn.1, hn.2, (Option.some.inj h).symm⟩
    · rw [if_neg hn] at h
      exact absurd h (by simp)

end NoDuplicates

/-! ## Suppression and class ids -/

section ClassAgnostic

/-- The result of `getDetections` on a tensor that reaches the row loop, in
terms of the index list returned by `NMSBoxes`. -/
theorem getDetections_keep (output : Mat) (m : Mat2d) (orig : Size) (t n : ℚ)
    (inputW inputH : Int) (flag : Bool) (he : output.empty = false)
    (hm : out2dOf output = some m) (hc : 6 ≤ m.cols) :
    getDetections output orig t n inputW inputH flag =
      (NMSBoxes
        ((candidates m orig t (scaleOf orig.width inputW)
          (scaleOf orig.height inputH) flag).map Candidate.box)
        ((candidates m orig t (scaleOf orig.width inputW)
          (scaleOf orig.height inputH) flag).map Candidate.score) t n).map
        (List.map (detectionAt (candidates m orig t (scaleOf orig.width inputW)
          (scaleOf orig.height inputH) flag))) := by
  unfold getDetections
  rw [he, hm]
  simp only [Bool.false_eq_true, if_false, if_neg (not_lt.mpr hc)]
  unfold candidates
  split <;> rename_i hk <;> rw [hk] <;> rfl

theorem detectionAt_box_conf (cands₁ cands₂ : List Candidate)
    (hb : cands₁.map Candidate.box = cands₂.map Candidate.box)
    (hs : cands₁.map Candidate.score = cands₂.map Candidate.score) (idx : Nat) :
    ((detectionAt cands₁ idx).box, (detectionAt cands₁ idx).confidence) =
      ((detectionAt cands₂ idx).box, (detectionAt cands₂ idx).confidence) := by
  unfold detectionAt
  simp only [hb, hs]

theorem map_detectionAt_box_conf (cands₁ cands₂ : List Candidate)
    (hb : cands₁.map Candidate.box = cands₂.map Candidate.box)
    (hs : cands₁.map Candidate.score = cands₂.map Candidate.score)
    (keep : Option (List Nat)) :
    (keep.map (List.map (detectionAt cands₁))).map (List.map fun d => (d.box, d.confidence)) =
      (keep.map (List.map (detectionAt cands₂))).map
        (List.map fun d => (d.box, d.confidence)) := by
  cases keep with
  | none => rfl
  | some k =>
    simp only [Option.map_some', List.map_map, Option.some.injEq]
    apply List.map_congr_left
    intro idx _
    exact detectionAt_box_conf _ _ hb hs idx

/-- Two candidates whose boxes overlap by more than the threshold reduce to
the one of higher score, whether or not the lower one passes the floor. -/
theorem suppress_pair_covered (t n : ℚ) (a b : Candidate) (l : List Candidate)
    (hl : l = [a, b] ∨ l = [b, a]) (hab : b.score < a.score) (ha : t < a.score)
    (hov : (rectOverlap a.box b.box).le n = false) : suppress t n l = [a] := by
  by_cases hb : t < b.score
  · rw [suppress_pair t n a b l hl hab hb, if_neg (by rw [hov]; simp)]
  · rcases hl with rfl | rfl <;>
      simp [suppress, ha, hb, stableSortDesc, insertDesc, greedyKeep]

end ClassAgnostic

/-! ## Normalized rows and the input size -/

section InputSize

theorem rowCandidate_normalized (m : Mat2d) (orig : Size) (t : ℚ) (sx sy sx' sy' : FVal) (flag : Bool)
    (i : Nat) (h : rowNormalized m i = true) :
    rowCandidate m orig t sx sy flag i = rowCandidate m orig t sx' sy' flag i := by
  have hbox : rowBox m orig sx sy i = rowBox m orig sx' sy' i := by
    unfold rowBox rowRawBox
    simp only [h, if_true]
  rw [rowCandidate_eq, rowCandidate_eq, hbox]

end InputSize

/-! ## Indices returned by `NMSFast` -/

section IndexSafety

theorem mem_NMSFast_lt (bboxes : List Rect) (scores : List ℚ) (t n : ℚ) (idx : Nat)
    (h : idx ∈ NMSFast bboxes scores t n) : idx < scores.length := by
  rw [NMSFast_eq_greedyKeep, GetMaxScoreIndex_snd] at h
  have h1 := (greedyKeep_sublist _ _).subset h
  have h2 := (mem_stableSortDesc _ _ _).mp h1
  exact List.mem_range.mp (List.mem_filter.mp h2).1

end IndexSafety

/-! ## Candidates left out by the suppression -/

section Covered
variable {α : Type}

/-- In a selection over a list in descending key order, every element left
out overlaps, by more than the threshold, a kept element of key at least its
own. -/
theorem greedyKeep_covered (ok : α → α → Bool) (key : α → ℚ) (l acc : List α)
    (hl : l.Pairwise fun x y => key y ≤ key x)
    (hacc : ∀ k ∈ acc, ∀ y ∈ l, key y ≤ key k)
    (x : α) (hx : x ∈ l) (hnot : x ∉ greedyKeep ok l acc) :
    ∃ k ∈ greedyKeep ok l acc, ok x k = false ∧ key x ≤ key k := by
  induction l generalizing acc with
  | nil => exact absurd hx (List.not_mem_nil _)
  | cons a l ih =>
    rw [List.pairwise_cons] at hl
    rw [greedyKeep_cons] at hnot ⊢
    rcases List.mem_cons.mp hx with hxa | hxl
    · subst hxa
      by_cases hall : acc.all (fun k => ok x k) = true
      · rw [if_pos hall] at hnot
        exact absurd ((greedyKeep_extends ok l (acc ++ [x])).subset (by simp)) hnot
      · rw [if_neg hall]
        rw [List.all_eq_true] at hall
        push_neg at hall
        obtain ⟨k, hk, hov⟩ := hall
        refine ⟨k, (greedyKeep_extends ok l acc).subset hk, ?_,
          hacc k hk x (List.mem_cons_self _ _)⟩
        simpa using hov
    · apply ih _ hl.2 _ hxl hnot
      intro k hk y hy
      split at hk
      · rcases List.mem_append.mp hk with h | h
        · exact hacc k h y (List.mem_cons_of_mem _ hy)
        · rw [List.mem_singleton.mp h]
          exact hl.1 y hy
      · exact hacc k hk y (List.mem_cons_of_mem _ hy)

theorem mem_taggedCandidates_of (m : Mat2d) (orig : Size) (t : ℚ) (sx sy : FVal) (flag : Bool)
    (i : Nat) (c : Candidate) (hi : i < m.rows)
    (hrc : rowCandidate m orig t sx sy flag i = some c) :
    (i, c) ∈ taggedCandidates m orig t sx sy flag := by
  unfold taggedCandidates
  rw [List.mem_filterMap]
  exact ⟨i, List.mem_range.mpr hi, by rw [hrc]; rfl⟩

/-- The candidates kept by `suppress`, with their rows, and the cover of
every candidate above the floor that is left out. -/
theorem suppress_tagged_covered (t n : ℚ) (T : List (Nat × Candidate)) :
    ∃ K : List (Nat × Candidate), K.map Prod.snd = suppress t n (T.map Prod.snd) ∧
      (∀ p ∈ K, p ∈ T) ∧
      ∀ p ∈ T, t < p.2.score → p ∉ K →
        ∃ q ∈ K, candOk n p.2 q.2 = false ∧ p.2.score ≤ q.2.score := by
  refine ⟨greedyKeep (fun p q : Nat × Candidate => candOk n p.2 q.2)
    (stableSortDesc (fun p => p.2.score) (T.filter fun p => decide (p.2.score > t))) [],
    ?_, ?_, ?_⟩
  · rw [greedyKeep_map (fun p q : Nat × Candidate => candOk n p.2 q.2) (candOk n) Prod.snd
      (by intro a b; rfl), ← stableSortDesc_map Candidate.score Prod.snd]
    unfold suppress
    rw [List.filter_map]
    rfl
  · intro p hp
    have h1 := (greedyKeep_sublist _ _).subset hp
    exact (List.mem_filter.mp ((mem_stableSortDesc _ _ _).mp h1)).1
  · intro p hp hpt hnot
    apply greedyKeep_covered (fun p q : Nat × Candidate => candOk n p.2 q.2)
      (fun p => p.2.score) _ [] (stableSortDesc_sorted _ _)
      (fun k hk => absurd hk (List.not_mem_nil _)) p _ hnot
    rw [mem_stableSortDesc, List.mem_filter]
    exact ⟨hp, by simpa using hpt⟩

end Covered
/-! ## Checked reads -/

section Checked

/-- Checked reads of columns that all lie in the row succeed and give the
columns' entries. -/
theorem readCols_checked (cols : Nat) (f : Nat → ℚ) (js : List Nat) (h : ∀ j ∈ js, j < cols) :
    readCols (fun j => if j < cols then some (f j) else none) js = some (js.map f) := by
  induction js with
  | nil => rfl
  | cons j js ih =>
    have hj : j < cols := h j (List.mem_cons_self _ _)
    have ih2 := ih (fun k hk => h k (List.mem_cons_of_mem _ hk))
    show ((if j < cols then some (f j) else none) >>= fun v =>
      readCols (fun j => if j < cols then some (f j) else none) js >>= fun vs =>
        some (v :: vs)) = _
    rw [if_pos hj, ih2]
    rfl

/-- In a matrix of at least 6 columns the loop body reads only columns of
the row: with every read checked it completes, with the result of the
unchecked body. -/
theorem rowCandidateChecked_eq (m : Mat2d) (orig : Size) (t : ℚ) (sx sy : FVal) (flag : Bool)
    (i : Nat) (hc : 6 ≤ m.cols) :
    rowCandidateChecked m orig t sx sy flag i = some (rowCandidate m orig t sx sy flag i) := by
  have h0 : 0 < m.cols := by omega
  have h1 : 1 < m.cols := by omega
  have h2 : 2 < m.cols := by omega
  have h3 : 3 < m.cols := by omega
  have h4 : 4 < m.cols := by omega
  have hs4 : ∀ j ∈ (List.range (m.cols - 4)).map (fun j => 4 + j), j < m.cols := by
    intro j hj
    obtain ⟨k, hk, rfl⟩ := List.mem_map.mp hj
    have := List.mem_range.mp hk
    omega
  have hs5 : ∀ j ∈ (List.range (m.cols - 5)).map (fun j => 5 + j), j < m.cols := by
    intro j hj
    obtain ⟨k, hk, rfl⟩ := List.mem_map.mp hj
    have := List.mem_range.mp hk
    omega
  cases flag
  · simp only [rowCandidateChecked, rowCandidate, rowBody, Bool.false_eq_true, if_false,
      if_pos h0, if_pos h1, if_pos h2, if_pos h3, if_pos h4, readCols_checked _ _ _ hs5,
      readCols_id, Id.run, Id.bind_eq, Id.pure_eq, pure_bind, Option.some_bind,
      Option.bind_eq_bind, Option.pure_def]
    split_ifs <;> rfl
  · simp only [rowCandidateChecked, rowCandidate, rowBody, if_true,
      if_pos h0, if_pos h1, if_pos h2, if_pos h3, readCols_checked _ _ _ hs4,
      readCols_id, Id.run, Id.bind_eq, Id.pure_eq, pure_bind, Option.some_bind,
      Option.bind_eq_bind, Option.pure_def]
    split_ifs <;> rfl

theorem forEachChecked_eq {α β : Type} (f : α → Option β) (g : α → β) (l : List α)
    (h : ∀ a ∈ l, f a = some (g a)) : forEachChecked f l = some (l.map g) := by
  induction l with
  | nil => rfl
  | cons a l ih =>
    have ih2 := ih (fun b hb => h b (List.mem_cons_of_mem _ hb))
    show (f a >>= fun b => forEachChecked f l >>= fun bs => some (b :: bs)) = _
    rw [h a (List.mem_cons_self _ _), ih2]
    rfl

/-- At a valid index the three checked reads succeed and give the entries
that `detectionAt` reads. -/
theorem detectionAtChecked_eq (cands : List Candidate) (idx : Nat) (h : idx < cands.length) :
    detectionAtChecked cands idx = some (detectionAt cands idx) := by
  unfold detectionAtChecked detectionAt
  have h1 : idx < (cands.map Candidate.classId).length := by simpa using h
  have h2 : idx < (cands.map Candidate.score).length := by simpa using h
  have h3 : idx < (cands.map Candidate.box).length := by simpa using h
  rw [List.getElem?_eq_getElem h1, List.getElem?_eq_getElem h2, List.getElem?_eq_getElem h3,
    List.getD_eq_getElem _ _ h1, List.getD_eq_getElem _ _ h2, List.getD_eq_getElem _ _ h3]
  rfl

/-- Every index returned by `NMSBoxes` is a valid index into its inputs. -/
theorem mem_NMSBoxes_lt (bboxes : List Rect) (scores : List ℚ) (t n : ℚ) (keep : List Nat)
    (h : NMSBoxes bboxes scores t n = some keep) (idx : Nat) (hidx : idx ∈ keep) :
    idx < bboxes.length ∧ idx < scores.length := by
  unfold NMSBoxes at h
  split at h
  · rename_i hc
    rw [← Option.some.inj h] at hidx
    have := mem_NMSFast_lt bboxes scores t n idx hidx
    exact ⟨by rw [hc.1]; exact this, this⟩
  · exact absurd h (by simp)

/-- The function `getDetections` never reads outside a row or a vector: with
every read checked it completes, with the same result. -/
theorem getDetectionsChecked_eq (output : Mat) (orig : Size) (t n : ℚ) (inputW inputH : Int)
    (flag : Bool) :
    getDetectionsChecked output orig t n inputW inputH flag =
      some (getDetections output orig t n inputW inputH flag) := by
  unfold getDetectionsChecked getDetections
  by_cases he : output.empty = true
  · rw [if_pos he, if_pos he]
  · rw [if_neg he, if_neg he]
    cases out2dOf output with
    | none => rfl
    | some m =>
      simp only []
      by_cases hc : m.cols < 6
      · rw [if_pos hc, if_pos hc]
      · rw [if_neg hc, if_neg hc]
        rw [forEachChecked_eq _
          (rowCandidate m orig t (scaleOf orig.width inputW) (scaleOf orig.height inputH) flag)
          _ (fun i _ => rowCandidateChecked_eq m orig t _ _ flag i (not_lt.mp hc))]
        simp only [Option.some_bind, Option.bind_eq_bind, List.filterMap_map, Function.id_comp]
        cases hk : NMSBoxes
            (List.map Candidate.box (List.filterMap (rowCandidate m orig t
              (scaleOf orig.width inputW) (scaleOf orig.height inputH) flag)
              (List.range m.rows)))
            (List.map Candidate.score (List.filterMap (rowCandidate m orig t
              (scaleOf orig.width inputW) (scaleOf orig.height inputH) flag)
              (List.range m.rows))) t n with
        | none => rfl
        | some keep =>
          simp only []
          rw [forEachChecked_eq _ (detectionAt _) keep (fun idx hidx =>
            detectionAtChecked_eq _ idx (by
              have := (mem_NMSBoxes_lt _ _ t n keep hk idx hidx).1
              simpa using this))]
          rfl

end Checked

/-! ## C1: monotonic filtering -/

/-- C1 (as stated, refuted): with `t1 = -1 < t2 = 1/4` the call at `t2` returns
a detection, while the call at `t1` returns nothing: `NMSBoxes` rejects the
negative score threshold. -/
theorem monotone_fails_negative_threshold :
    (-1 : ℚ) < 1 / 4 ∧
    getDetections normalizedExample ⟨1280, 960⟩ (1 / 4) (f32Q (9 / 20)) 640 640 true =
      some [⟨0, f32Q (9 / 10), ⟨512, 384, 256, 192⟩⟩] ∧
    getDetections normalizedExample ⟨1280, 960⟩ (-1) (f32Q (9 / 20)) 640 640 true = none := by
  decide!

/-- C1 (amended): for thresholds `0 ≤ t1 < t2`, whenever `getDetections`
returns at `t2` it returns at `t1`, and every detection of the `t2` result is
in the `t1` result, suppression running after the filter notwithstanding. -/
theorem getDetections_threshold_monotone (output : Mat) (orig : Size) (t₁ t₂ n : ℚ)
    (inputW inputH : Int) (flag : Bool) (h0 : 0 ≤ t₁) (h : t₁ < t₂) (r₂ : List Detection)
    (h2 : getDetections output orig t₂ n inputW inputH flag = some r₂) :
    ∃ r₁, getDetections output orig t₁ n inputW inputH flag = some r₁ ∧ ∀ d ∈ r₂, d ∈ r₁ := by
  rcases getDetections_dichotomy output with hbad | ⟨m, _, _, _, hgood⟩
  · rw [hbad] at h2
    refine ⟨[], hbad _ _ _ _ _ _, ?_⟩
    rw [← Option.some.inj h2]
    simp
  · rw [hgood] at h2 ⊢
    by_cases hn : 0 ≤ t₂ ∧ 0 ≤ n
    · rw [if_pos hn] at h2
      rw [if_pos ⟨h0, hn.2⟩]
      refine ⟨_, rfl, ?_⟩
      rw [← Option.some.inj h2, candidates_threshold _ _ t₁ t₂ _ _ _ (le_of_lt h)]
      intro d hd
      exact ((suppress_threshold_initial t₁ t₂ n h _).map Candidate.toDetection).subset hd
    · rw [if_neg hn] at h2
      exact absurd h2 (by simp)

/-- C1 witness: thresholds `1/4 < 1/2` on the example tensor. -/
theorem getDetections_threshold_monotone_witness :
    ∃ r₁, getDetections normalizedExample ⟨1280, 960⟩ (1 / 4) (f32Q (9 / 20)) 640 640 true = some r₁ ∧
      ∀ d ∈ [(⟨0, f32Q (9 / 10), ⟨512, 384, 256, 192⟩⟩ : Detection)], d ∈ r₁ :=
  getDetections_threshold_monotone normalizedExample ⟨1280, 960⟩ (1 / 4) (1 / 2) (f32Q (9 / 20))
    640 640 true (by decide!) (by decide!) _ (by decide!)

/-! ## C2: the suppression step is idempotent -/

/-- C2: when `NMSBoxes` returns the index list `keep`, running it again on the
kept boxes and scores, with the same thresholds, keeps every one of them, in
the same order. -/
theorem NMSBoxes_idempotent (bboxes : List Rect) (scores : List ℚ) (t n : ℚ)
    (keep : List Nat) (h : NMSBoxes bboxes scores t n = some keep) :
    NMSBoxes (keep.map fun i => bboxes.getD i Rect.zero) (keep.map fun i => scores.getD i 0)
      t n = some (List.range keep.length) := by
  unfold NMSBoxes at h ⊢
  by_cases hc : bboxes.length = scores.length ∧ 0 ≤ t ∧ 0 ≤ n
  · rw [if_pos hc] at h
    have hk : NMSFast bboxes scores t n = keep := Option.some.inj h
    obtain ⟨hF2, hF3, hF4⟩ := NMSFast_spec bboxes scores t n
    rw [hk] at hF2 hF3 hF4
    rw [if_pos ⟨by simp, hc.2⟩]
    congr 1
    have hrange : (List.range keep.length).map (fun i => keep.getD i scores.length) = keep :=
      map_getD_range keep scores.length
    have hkey : ∀ i, (keep.map fun i => scores.getD i 0).getD i 0 =
        scores.getD (keep.getD i scores.length) 0 := by
      intro i
      have := getD_map_dflt (fun i => scores.getD i 0) keep scores.length i
      rwa [getD_length_self] at this
    have hbox : ∀ i, (keep.map fun i => bboxes.getD i Rect.zero).getD i Rect.zero =
        bboxes.getD (keep.getD i scores.length) Rect.zero := by
      intro i
      have := getD_map_dflt (fun i => bboxes.getD i Rect.zero) keep scores.length i
      rwa [← hc.1, getD_length_self, hc.1] at this
    rw [NMSFast_eq_greedyKeep, GetMaxScoreIndex_snd]
    simp only [hkey, hbox, List.length_map]
    have hfilter : ((List.range keep.length).filter fun i =>
        decide (scores.getD (keep.getD i scores.length) 0 > t)) = List.range keep.length := by
      rw [List.filter_eq_self]
      intro i hi
      have hmem : keep.getD i scores.length ∈ keep := by
        rw [List.getD_eq_getElem _ _ (List.mem_range.mp hi)]
        exact List.getElem_mem _
      simpa using hF2 _ hmem
    rw [hfilter]
    have hsorted : (List.range keep.length).Pairwise fun p q =>
        scores.getD (keep.getD q scores.length) 0 ≤ scores.getD (keep.getD p scores.length) 0 := by
      rw [← hrange] at hF3
      exact List.pairwise_map.mp hF3
    rw [stableSortDesc_eq_self _ _ hsorted]
    have hov : ([] ++ List.range keep.length).Pairwise fun a b =>
        (rectOverlap (bboxes.getD (keep.getD b scores.length) Rect.zero)
          (bboxes.getD (keep.getD a scores.length) Rect.zero)).le n = true := by
      rw [← hrange] at hF4
      simpa using List.pairwise_map.mp hF4
    simpa using greedyKeep_eq_self _ _ [] hov
  · rw [if_neg hc] at h
    exact absurd h (by simp)

/-- C2 witness: three boxes, the second covered by the first; the kept
indices `[0, 2]` are kept again as `[0, 1]`. -/
theorem NMSBoxes_idempotent_witness :
    NMSBoxes [⟨0, 0, 10, 10⟩, ⟨1, 0, 10, 10⟩, ⟨20, 20, 5, 5⟩] [f32Q (9 / 10), f32Q (3 / 5), 1 / 2]
        (1 / 4) (f32Q (9 / 20)) = some [0, 2] ∧
    NMSBoxes ([0, 2].map fun i =>
        ([⟨0, 0, 10, 10⟩, ⟨1, 0, 10, 10⟩, ⟨20, 20, 5, 5⟩] : List Rect).getD i Rect.zero)
      ([0, 2].map fun i => ([f32Q (9 / 10), f32Q (3 / 5), 1 / 2] : List ℚ).getD i 0) (1 / 4) (f32Q (9 / 20))
        = some (List.range [0, 2].length) :=
  ⟨by decide!, NMSBoxes_idempotent _ _ _ _ _ (by decide!)⟩

/-! ## C3: the normalized-coordinate path -/

/-- C3 (as stated, refuted): the one-row tensor `[0.5, 0.5, 0, 0, 0.9, 0.1]`
has all four box attributes at most 1.5 and best class score 0.9 above the
threshold 0.25, yet no detection is returned: its box has zero area.  And on
the row `[0.5, 0.5, 0.2, 0.2, 0.9, 0.1]` the formula `trunc(x*W - (w*W)/2)`
evaluated without rounding gives 511 (the entry `0.2f` is slightly above
`1/5`), where the program returns the left edge 512. -/
theorem normalized_row_refuted :
    (∃ m, out2dOf degenerateExample = some m ∧ m.rows = 1 ∧ m.elem 0 0 ≤ 3 / 2 ∧
      m.elem 0 1 ≤ 3 / 2 ∧ m.elem 0 2 ≤ 3 / 2 ∧ m.elem 0 3 ≤ 3 / 2 ∧
      1 / 4 < (minMaxLoc (rowScores m true 0)).1) ∧
    getDetections degenerateExample ⟨1280, 960⟩ (1 / 4) (f32Q (9 / 20)) 640 640 true = some [] ∧
    toInt (FVal.fin (normalizedExample.data 0 * 1280 - normalizedExample.data 2 * 1280 / 2)) =
      511 ∧
    getDetections normalizedExample ⟨1280, 960⟩ (1 / 4) (f32Q (9 / 20)) 640 640 true =
      some [⟨0, f32Q (9 / 10), ⟨512, 384, 256, 192⟩⟩] :=
  ⟨⟨⟨1, 6, fun i j => degenerateExample.data (i * 6 + j)⟩, rfl, rfl, by decide!, by decide!,
    by decide!, by decide!, by decide!⟩, by decide!, by decide!, by decide!⟩

/-- C3 (amended): for an ObjectnessFree tensor of `float` entries whose
normalized matrix is a single row of at least 6 columns, with all four box
attributes `x y w h` at most 1.5 and best class score above `confThreshold`,
and non-negative thresholds: `getDetections` returns exactly one detection
when the rectangle `(trunc(x*W - (w*W)/2), trunc(y*H - (h*H)/2), trunc(w*W),
trunc(h*H))`, every product, quotient and difference rounded to `float`,
clamped to the `W x H` image has positive area, with that clamped rectangle
as box, the best class score as confidence and its position as class id; it
returns no detection otherwise. -/
theorem getDetections_normalized_row (output : Mat) (m : Mat2d) (orig : Size) (t n : ℚ)
    (inputW inputH : Int) (hm : out2dOf output = some m) (hrows : m.rows = 1)
    (hcols : 6 ≤ m.cols) (ht : 0 ≤ t) (hn : 0 ≤ n)
    (hfloat : ∀ j, 4 ≤ j → j < m.cols → f32Q (m.elem 0 j) = m.elem 0 j)
    (hx : m.elem 0 0 ≤ 3 / 2) (hy : m.elem 0 1 ≤ 3 / 2) (hw : m.elem 0 2 ≤ 3 / 2)
    (hh : m.elem 0 3 ≤ 3 / 2) (hbest : t < (minMaxLoc (rowScores m true 0)).1) :
    getDetections output orig t n inputW inputH true =
      some (if 0 < (clampRect
            ⟨toInt (FVal.sub f32 (FVal.mul f32 (.fin (m.elem 0 0)) (f32 orig.width))
                (FVal.div f32 (FVal.mul f32 (.fin (m.elem 0 2)) (f32 orig.width)) (.fin 2))),
              toInt (FVal.sub f32 (FVal.mul f32 (.fin (m.elem 0 1)) (f32 orig.height))
                (FVal.div f32 (FVal.mul f32 (.fin (m.elem 0 3)) (f32 orig.height)) (.fin 2))),
              toInt (FVal.mul f32 (.fin (m.elem 0 2)) (f32 orig.width)),
              toInt (FVal.mul f32 (.fin (m.elem 0 3)) (f32 orig.height))⟩ orig).area
        then [⟨((minMaxLoc (rowScores m true 0)).2 : Int), (minMaxLoc (rowScores m true 0)).1,
          clampRect
            ⟨toInt (FVal.sub f32 (FVal.mul f32 (.fin (m.elem 0 0)) (f32 orig.width))
                (FVal.div f32 (FVal.mul f32 (.fin (m.elem 0 2)) (f32 orig.width)) (.fin 2))),
              toInt (FVal.sub f32 (FVal.mul f32 (.fin (m.elem 0 1)) (f32 orig.height))
                (FVal.div f32 (FVal.mul f32 (.fin (m.elem 0 3)) (f32 orig.height)) (.fin 2))),
              toInt (FVal.mul f32 (.fin (m.elem 0 2)) (f32 orig.width)),
              toInt (FVal.mul f32 (.fin (m.elem 0 3)) (f32 orig.height))⟩ orig⟩]
        else []) := by
  rw [getDetections_single_row output m orig t n inputW inputH true hm hrows hcols ht hn,
    rowCandidate_eq]
  have hconf : rowConf m true 0 = (minMaxLoc (rowScores m true 0)).1 := by
    obtain ⟨hlt, hval, _, _⟩ := rowScores_argmax m true 0 hcols
    have hcs : clsStart true = 4 := rfl
    rw [hcs] at hlt hval
    have := hfloat (4 + (minMaxLoc (rowScores m true 0)).2) (by omega) (by omega)
    rw [hval] at this
    simp only [rowConf, rowObj, if_true, one_mul]
    exact this
  have hnorm : rowNormalized m 0 = true := by simp [rowNormalized, hx, hy, hw, hh]
  have hbox : rowBox m orig (scaleOf orig.width inputW) (scaleOf orig.height inputH) 0
      = clampRect
            ⟨toInt (FVal.sub f32 (FVal.mul f32 (.fin (m.elem 0 0)) (f32 orig.width))
                (FVal.div f32 (FVal.mul f32 (.fin (m.elem 0 2)) (f32 orig.width)) (.fin 2))),
              toInt (FVal.sub f32 (FVal.mul f32 (.fin (m.elem 0 1)) (f32 orig.height))
                (FVal.div f32 (FVal.mul f32 (.fin (m.elem 0 3)) (f32 orig.height)) (.fin 2))),
              toInt (FVal.mul f32 (.fin (m.elem 0 2)) (f32 orig.width)),
              toInt (FVal.mul f32 (.fin (m.elem 0 3)) (f32 orig.height))⟩ orig := by
    simp only [rowBox, rowRawBox, hnorm, cornerRect, if_true]
  rw [hconf, hbox]
  simp only [Bool.not_true, Bool.false_and, Bool.false_eq_true, if_false,
    if_neg (not_lt.mpr (le_of_lt hbest))]
  split_ifs with h1 h2 h2
  · exact absurd h1 (not_le.mpr h2)
  · rfl
  · simp only [Option.toList]
    rw [suppress_singleton t n _ hbest]
    rfl
  · exact absurd (not_le.mp h1) h2

/-- C3 witness: the row `[0.5, 0.5, 0.2, 0.2, 0.9, 0.1]` with input size
640x640, original size 1280x960 and threshold 0.25 yields exactly one
detection, class 0, confidence 0.9, box `(512, 384, 256, 192)`. -/
theorem getDetections_normalized_row_witness :
    getDetections normalizedExample ⟨1280, 960⟩ (1 / 4) (f32Q (9 / 20)) 640 640 true =
      some [⟨0, f32Q (9 / 10), ⟨512, 384, 256, 192⟩⟩] :=
  (getDetections_normalized_row normalizedExample
    ⟨1, 6, fun i j => normalizedExample.data (i * 6 + j)⟩ ⟨1280, 960⟩ (1 / 4) (f32Q (9 / 20))
    640 640 rfl rfl (by decide) (by decide!) (by decide!)
    (by intro j h4 h6; interval_cases j <;> decide!)
    (by decide!) (by decide!) (by decide!) (by decide!) (by decide!)).trans (by decide!)

/-! ## C4: the pixel-scale path -/

/-- C4: on a tensor that reaches the row loop, with non-negative thresholds,
`getDetections` returns, and every detection it returns is the candidate of
some row `i`; when that row has a box attribute above 1.5, the box of the
detection is the centre-to-corner rectangle of `x * sx, y * sy, w * sx,
h * sy` clamped to the image, with `sx = W / inputW` and `sy = H / inputH`
computed in `float` from the original and input sizes.  When the matrix is a
single such row that passes the objectness test and whose confidence is
above `confThreshold`, the result is exactly that one detection, or no
detection when the clamped box has no area. -/
theorem getDetections_pixel_row (output : Mat) (m : Mat2d) (orig : Size) (t n : ℚ)
    (inputW inputH : Int) (flag : Bool) (hm : out2dOf output = some m) (hcols : 6 ≤ m.cols)
    (ht : 0 ≤ t) (hn : 0 ≤ n) :
    (∃ dets, getDetections output orig t n inputW inputH flag = some dets ∧
      ∀ d ∈ dets, ∃ i, i < m.rows ∧ d.confidence = rowConf m flag i ∧
        d.classId = ((minMaxLoc (rowScores m flag i)).2 : Int) ∧
        ((3 / 2 < m.elem i 0 ∨ 3 / 2 < m.elem i 1 ∨ 3 / 2 < m.elem i 2 ∨ 3 / 2 < m.elem i 3) →
          d.box = clampRect (cornerRect
            (FVal.mul f32 (.fin (m.elem i 0)) (scaleOf orig.width inputW))
            (FVal.mul f32 (.fin (m.elem i 1)) (scaleOf orig.height inputH))
            (FVal.mul f32 (.fin (m.elem i 2)) (scaleOf orig.width inputW))
            (FVal.mul f32 (.fin (m.elem i 3)) (scaleOf orig.height inputH))) orig)) ∧
    (m.rows = 1 →
      (3 / 2 < m.elem 0 0 ∨ 3 / 2 < m.elem 0 1 ∨ 3 / 2 < m.elem 0 2 ∨ 3 / 2 < m.elem 0 3) →
      (flag = false → f32Q (1 / 1000000) < m.elem 0 4) → t < rowConf m flag 0 →
      getDetections output orig t n inputW inputH flag =
        some (if 0 < (clampRect (cornerRect
            (FVal.mul f32 (.fin (m.elem 0 0)) (scaleOf orig.width inputW))
            (FVal.mul f32 (.fin (m.elem 0 1)) (scaleOf orig.height inputH))
            (FVal.mul f32 (.fin (m.elem 0 2)) (scaleOf orig.width inputW))
            (FVal.mul f32 (.fin (m.elem 0 3)) (scaleOf orig.height inputH))) orig).area
          then [⟨((minMaxLoc (rowScores m flag 0)).2 : Int), rowConf m flag 0,
            clampRect (cornerRect
              (FVal.mul f32 (.fin (m.elem 0 0)) (scaleOf orig.width inputW))
              (FVal.mul f32 (.fin (m.elem 0 1)) (scaleOf orig.height inputH))
              (FVal.mul f32 (.fin (m.elem 0 2)) (scaleOf orig.width inputW))
              (FVal.mul f32 (.fin (m.elem 0 3)) (scaleOf orig.height inputH))) orig⟩]
          else [])) := by
  have hpixbox : ∀ i,
      (3 / 2 < m.elem i 0 ∨ 3 / 2 < m.elem i 1 ∨ 3 / 2 < m.elem i 2 ∨ 3 / 2 < m.elem i 3) →
      rowBox m orig (scaleOf orig.width inputW) (scaleOf orig.height inputH) i =
        clampRect (cornerRect
          (FVal.mul f32 (.fin (m.elem i 0)) (scaleOf orig.width inputW))
          (FVal.mul f32 (.fin (m.elem i 1)) (scaleOf orig.height inputH))
          (FVal.mul f32 (.fin (m.elem i 2)) (scaleOf orig.width inputW))
          (FVal.mul f32 (.fin (m.elem i 3)) (scaleOf orig.height inputH))) orig := by
    intro i hpix
    have hnorm : rowNormalized m i = false := by
      simp only [rowNormalized, Bool.and_eq_false_iff, decide_eq_false_iff_not, not_le]
      tauto
    simp only [rowBox, rowRawBox, hnorm, Bool.false_eq_true, if_false]
  constructor
  · have hget : ∃ dets, getDetections output orig t n inputW inputH flag = some dets := by
      rcases getDetections_dichotomy output with hbad | ⟨_, _, _, _, hgood⟩
      · exact ⟨[], hbad _ _ _ _ _ _⟩
      · exact ⟨_, by rw [hgood, if_pos (And.intro ht hn)]⟩
    obtain ⟨dets, hget⟩ := hget
    refine ⟨dets, hget, ?_⟩
    intro d hd
    obtain ⟨m', c, i, hm', _, hi, hrow, hdc, _, _, _⟩ :=
      getDetections_mem output orig t n inputW inputH flag _ hget d hd
    rw [hm] at hm'
    have := Option.some.inj hm'
    subst this
    obtain ⟨hbox, _, hscore, _, hcls, _⟩ := rowCandidate_some _ _ _ _ _ _ _ _ hrow
    subst hdc
    refine ⟨i, hi, hscore, hcls, ?_⟩
    intro hpix
    rw [← hpixbox i hpix]
    exact hbox
  · intro hrows1 hpix hobj hconf
    rw [getDetections_single_row output m orig t n inputW inputH flag hm hrows1 hcols ht hn,
      rowCandidate_eq, hpixbox 0 hpix]
    have hobj2 : (!flag && decide (rowObj m flag 0 ≤ f32Q (1 / 1000000))) = false := by
      cases flag with
      | true => rfl
      | false => simpa [rowObj] using hobj rfl
    rw [hobj2]
    simp only [Bool.false_eq_true, if_false, if_neg (not_lt.mpr (le_of_lt hconf))]
    split_ifs with h1 h2 h2
    · exact absurd h1 (not_le.mpr h2)
    · rfl
    · simp only [Option.toList]
      rw [suppress_singleton t n _ hconf]
      rfl
    · exact absurd (not_le.mp h1) h2

/-- C4 witness: the row `[500, 500, 200, 200, 900, 100]` with input size
640x640, original size 1280x960 and threshold 0.25 yields exactly one
detection, with box `(800, 600, 400, 300)`; the box differs from the
normalized-path box and lies inside the 1280x960 image.  The row
`[320, 320, 100, 26.666666, 0.9, 0.1]` with original size 1920x1080 yields
the box `(810, 517, 300, 45)`: the height `26.666666f * 1.6875f` rounds to
`45.0f`. -/
theorem getDetections_pixel_row_witness :
    getDetections pixelExample ⟨1280, 960⟩ (1 / 4) (f32Q (9 / 20)) 640 640 true =
      some [⟨0, 900, ⟨800, 600, 400, 300⟩⟩] ∧
    (⟨800, 600, 400, 300⟩ : Rect) ≠ ⟨512, 384, 256, 192⟩ ∧
    ((0 : Int) ≤ 800 ∧ (0 : Int) ≤ 600 ∧ (800 : Int) + 400 ≤ 1280 ∧ (600 : Int) + 300 ≤ 960) ∧
    getDetections pixelRoundingExample ⟨1920, 1080⟩ (1 / 4) (f32Q (9 / 20)) 640 640 true =
      some [⟨0, f32Q (9 / 10), ⟨810, 517, 300, 45⟩⟩] :=
  ⟨((getDetections_pixel_row pixelExample ⟨1, 6, fun i j => pixelExample.data (i * 6 + j)⟩
      ⟨1280, 960⟩ (1 / 4) (f32Q (9 / 20)) 640 640 true rfl (by decide) (by decide!)
      (by decide!)).2 rfl (Or.inl (by decide!)) (by intro h; exact absurd h (by decide))
      (by decide!)).trans (by decide!),
    by decide, by decide, by decide!⟩

/-! ## C5: two surviving candidates -/

/-- C5 (as stated, refuted), in two ways.  The two rows of `twoRowExample`
survive with confidences 0.9 and 0.6, both above `confThreshold = -1`, and
their boxes coincide, yet the call returns no detection at all: `NMSBoxes`
rejects the negative score threshold.  And the two rows of
`overlapTieExample` survive with confidences 0.9 and 0.6 above
`confThreshold = 0.25` and boxes of intersection over union `9/20`, which
exceeds `nmsThreshold = 0.45f`, yet both are returned: the overlap computed
in `float` is `0.45f` itself. -/
theorem two_candidates_both_kept :
    (out2dOf twoRowExample = some ⟨2, 6, fun i j => twoRowExample.data (i * 6 + j)⟩ ∧
      candidates ⟨2, 6, fun i j => twoRowExample.data (i * 6 + j)⟩ ⟨1280, 960⟩ (-1)
          (scaleOf 1280 640) (scaleOf 960 640) true
        = [⟨⟨512, 384, 256, 192⟩, f32Q (9 / 10), 0⟩, ⟨⟨512, 384, 256, 192⟩, f32Q (3 / 5), 0⟩] ∧
      f32Q (9 / 20) < iou ⟨512, 384, 256, 192⟩ ⟨512, 384, 256, 192⟩ ∧
      getDetections twoRowExample ⟨1280, 960⟩ (-1) (f32Q (9 / 20)) 640 640 true = none) ∧
    (out2dOf overlapTieExample = some ⟨2, 6, fun i j => overlapTieExample.data (i * 6 + j)⟩ ∧
      candidates ⟨2, 6, fun i j => overlapTieExample.data (i * 6 + j)⟩ ⟨640, 640⟩ (1 / 4)
          (scaleOf 640 640) (scaleOf 640 640) true
        = [⟨⟨0, 0, 29, 10⟩, f32Q (9 / 10), 0⟩, ⟨⟨11, 0, 29, 10⟩, f32Q (3 / 5), 0⟩] ∧
      f32Q (9 / 20) < iou ⟨0, 0, 29, 10⟩ ⟨11, 0, 29, 10⟩ ∧
      rectOverlap ⟨0, 0, 29, 10⟩ ⟨11, 0, 29, 10⟩ = FVal.fin (f32Q (9 / 20)) ∧
      getDetections overlapTieExample ⟨640, 640⟩ (1 / 4) (f32Q (9 / 20)) 640 640 true =
        some [⟨0, f32Q (9 / 10), ⟨0, 0, 29, 10⟩⟩, ⟨0, f32Q (3 / 5), ⟨11, 0, 29, 10⟩⟩]) :=
  ⟨⟨rfl, by decide!, by decide!, by decide!⟩, rfl, by decide!, by decide!, by decide!,
    by decide!⟩

/-- C5 (amended): with non-negative thresholds, when the row loop leaves
exactly two candidates `a` and `b` (in either row order) with confidences
`a.score > b.score > confThreshold`, `getDetections` returns `a` followed by
`b` if the overlap of their boxes, as `NMSBoxes` computes it in `float`
(`rectOverlap`), is at most `nmsThreshold`, and only `a` otherwise. -/
theorem getDetections_two_candidates (output : Mat) (m : Mat2d) (orig : Size) (t n : ℚ)
    (inputW inputH : Int) (flag : Bool) (a b : Candidate)
    (he : output.empty = false) (hm : out2dOf output = some m) (hcols : 6 ≤ m.cols)
    (ht : 0 ≤ t) (hn : 0 ≤ n)
    (hc : candidates m orig t (scaleOf orig.width inputW)
        (scaleOf orig.height inputH) flag = [a, b] ∨
      candidates m orig t (scaleOf orig.width inputW)
        (scaleOf orig.height inputH) flag = [b, a])
    (hab : b.score < a.score) (hb : t < b.score) :
    getDetections output orig t n inputW inputH flag =
      some (if (rectOverlap a.box b.box).le n = true then [a.toDetection, b.toDetection]
        else [a.toDetection]) := by
  rw [getDetections_eq, he, hm]
  simp only [Bool.false_eq_true, if_false, if_neg (not_lt.mpr hcols), if_pos (And.intro ht hn)]
  rw [suppress_pair t n a b _ hc hab hb]
  split <;> rfl

/-- C5 witness: confidences 0.9 and 0.6 with `nmsThreshold = 0.45`; two rows
with the same box give only the 0.9 detection, two rows with disjoint boxes
give both, the 0.9 one first. -/
theorem getDetections_two_candidates_witness :
    getDetections twoRowExample ⟨1280, 960⟩ (1 / 4) (f32Q (9 / 20)) 640 640 true =
      some [⟨0, f32Q (9 / 10), ⟨512, 384, 256, 192⟩⟩] ∧
    getDetections twoApartExample ⟨1280, 960⟩ (1 / 4) (f32Q (9 / 20)) 640 640 true =
      some [⟨0, f32Q (9 / 10), ⟨832, 624, 256, 192⟩⟩, ⟨0, f32Q (3 / 5), ⟨192, 144, 256, 192⟩⟩] :=
  ⟨(getDetections_two_candidates twoRowExample
      ⟨2, 6, fun i j => twoRowExample.data (i * 6 + j)⟩ ⟨1280, 960⟩ (1 / 4) (f32Q (9 / 20))
      640 640 true
      ⟨⟨512, 384, 256, 192⟩, f32Q (9 / 10), 0⟩ ⟨⟨512, 384, 256, 192⟩, f32Q (3 / 5), 0⟩
      (by decide) rfl (by decide) (by decide!) (by decide!) (Or.inl (by decide!))
      (by decide!) (by decide!)).trans (by decide!),
    (getDetections_two_candidates twoApartExample
      ⟨2, 6, fun i j => twoApartExample.data (i * 6 + j)⟩ ⟨1280, 960⟩ (1 / 4) (f32Q (9 / 20))
      640 640 true
      ⟨⟨832, 624, 256, 192⟩, f32Q (9 / 10), 0⟩ ⟨⟨192, 144, 256, 192⟩, f32Q (3 / 5), 0⟩
      (by decide) rfl (by decide) (by decide!) (by decide!) (Or.inr (by decide!))
      (by decide!) (by decide!)).trans (by decide!)⟩

/-! ## C6 and C7: rejected tensors -/

/-- C6: a tensor whose rank is neither 2 nor 3, or of rank 3 with leading
dimension other than 1, gives the empty detection list for all thresholds,
sizes and layout flags, and no exception. -/
theorem getDetections_unsupported_shape (output : Mat) (orig : Size) (t n : ℚ)
    (inputW inputH : Int) (flag : Bool)
    (h : (output.size.length ≠ 2 ∧ output.size.length ≠ 3) ∨
      (∃ d0 d1 d2, output.size = [d0, d1, d2] ∧ d0 ≠ 1)) :
    getDetections output orig t n inputW inputH flag = some [] := by
  have hnone : out2dOf output = none := by
    unfold out2dOf
    rcases h with ⟨h2, h3⟩ | ⟨d0, d1, d2, hsz, hd0⟩
    · split
      · rename_i hsz
        simp [hsz] at h3
      · rename_i hsz
        simp [hsz] at h2
      · rfl
    · rw [hsz]
      simp [hd0]
  unfold getDetections
  rw [hnone]
  split <;> rfl

/-- C6 witness: a rank-4 tensor and a rank-3 tensor with leading dimension 2. -/
theorem getDetections_unsupported_shape_witness :
    getDetections rankFourExample ⟨1280, 960⟩ (1 / 4) (f32Q (9 / 20)) 640 640 true = some [] ∧
    getDetections batchTwoExample ⟨1280, 960⟩ (1 / 4) (f32Q (9 / 20)) 640 640 false = some [] :=
  ⟨getDetections_unsupported_shape rankFourExample ⟨1280, 960⟩ (1 / 4) (f32Q (9 / 20)) 640 640 true
      (Or.inl ⟨by decide, by decide⟩),
    getDetections_unsupported_shape batchTwoExample ⟨1280, 960⟩ (1 / 4) (f32Q (9 / 20)) 640 640 false
      (Or.inr ⟨2, 6, 1, rfl, by decide⟩)⟩

/-- C7: a tensor whose normalized matrix has fewer than 6 columns gives the
empty detection list, whatever the rows, thresholds and layout flag. -/
theorem getDetections_few_columns (output : Mat) (m : Mat2d) (orig : Size) (t n : ℚ)
    (inputW inputH : Int) (flag : Bool) (hm : out2dOf output = some m) (hc : m.cols < 6) :
    getDetections output orig t n inputW inputH flag = some [] := by
  unfold getDetections
  rw [hm]
  simp only [if_pos hc]
  split <;> rfl

/-- C7 witness: one row of 4 box attributes and a single class score. -/
theorem getDetections_few_columns_witness :
    getDetections fiveColumnExample ⟨1280, 960⟩ (1 / 4) (f32Q (9 / 20)) 640 640 true = some [] :=
  getDetections_few_columns fiveColumnExample
    ⟨1, 5, fun i j => fiveColumnExample.data (i * 5 + j)⟩ ⟨1280, 960⟩ (1 / 4) (f32Q (9 / 20)) 640 640
    true rfl (by decide)

/-! ## C8: returned boxes lie inside the image -/

/-- C8: every detection returned by `getDetections` has a box inside the
original image rectangle, of positive width and height; a candidate whose
clamped box has no area is therefore never returned. -/
theorem getDetections_box_inside (output : Mat) (orig : Size) (t n : ℚ) (inputW inputH : Int)
    (flag : Bool) (dets : List Detection)
    (h : getDetections output orig t n inputW inputH flag = some dets)
    (d : Detection) (hd : d ∈ dets) :
    0 ≤ d.box.x ∧ 0 ≤ d.box.y ∧ d.box.x + d.box.width ≤ orig.width ∧
      d.box.y + d.box.height ≤ orig.height ∧ 0 < d.box.width ∧ 0 < d.box.height := by
  obtain ⟨m, c, i, _, _, _, hrow, rfl, _, _, _⟩ :=
    getDetections_mem output orig t n inputW inputH flag dets h d hd
  obtain ⟨hbox, harea, _⟩ := rowCandidate_some _ _ _ _ _ _ _ _ hrow
  show 0 ≤ c.box.x ∧ 0 ≤ c.box.y ∧ c.box.x + c.box.width ≤ orig.width ∧
      c.box.y + c.box.height ≤ orig.height ∧ 0 < c.box.width ∧ 0 < c.box.height
  rw [hbox] at harea ⊢
  exact clampRect_inside _ _ harea

/-- C8 witness: a row whose box crosses the right and bottom edges of the
1280x960 image is returned clamped to `(1088, 816, 192, 144)`. -/
theorem getDetections_box_inside_witness :
    getDetections edgeExample ⟨1280, 960⟩ (1 / 4) (f32Q (9 / 20)) 640 640 true =
      some [⟨0, f32Q (9 / 10), ⟨1088, 816, 192, 144⟩⟩] ∧
    ((0 : Int) ≤ 1088 ∧ (0 : Int) ≤ 816 ∧ (1088 : Int) + 192 ≤ 1280 ∧ (816 : Int) + 144 ≤ 960 ∧
      (0 : Int) < 192 ∧ (0 : Int) < 144) :=
  ⟨by decide!,
    getDetections_box_inside edgeExample ⟨1280, 960⟩ (1 / 4) (f32Q (9 / 20)) 640 640 true
      [⟨0, f32Q (9 / 10), ⟨1088, 816, 192, 144⟩⟩] (by decide!) ⟨0, f32Q (9 / 10), ⟨1088, 816, 192, 144⟩⟩
      (List.mem_singleton.mpr rfl)⟩

/-! ## C9: range of the confidence -/

/-- C9 (as stated, refuted): a tensor whose class score is 2 gives a detection
of confidence 2, outside `[0, 1]`. -/
theorem confidence_above_one :
    getDetections logitExample ⟨1280, 960⟩ (1 / 4) (f32Q (9 / 20)) 640 640 true =
      some [⟨0, 2, ⟨512, 384, 256, 192⟩⟩] ∧
    ¬ ((⟨0, 2, ⟨512, 384, 256, 192⟩⟩ : Detection).confidence ≤ 1) := by
  decide!

/-- C9 (amended): for every input tensor whose objectness and class-score
entries (the entries of the normalized matrix in rows `0 .. rows - 1` and
columns `4 .. cols - 1`) are at most 1, every detection returned by
`getDetections` has a confidence in `[0, 1]`. -/
theorem getDetections_confidence_unit (output : Mat) (orig : Size) (t n : ℚ)
    (inputW inputH : Int) (flag : Bool) (dets : List Detection)
    (h : getDetections output orig t n inputW inputH flag = some dets)
    (hle : ∀ m, out2dOf output = some m →
      ∀ i j, i < m.rows → 4 ≤ j → j < m.cols → m.elem i j ≤ 1)
    (d : Detection) (hd : d ∈ dets) : 0 ≤ d.confidence ∧ d.confidence ≤ 1 := by
  obtain ⟨m, c, i, hm, hcols, hi, hrow, rfl, hct, ht, _⟩ :=
    getDetections_mem output orig t n inputW inputH flag dets h d hd
  obtain ⟨_, _, hscore, _, _, hobj⟩ := rowCandidate_some _ _ _ _ _ _ _ _ hrow
  show 0 ≤ c.score ∧ c.score ≤ 1
  refine ⟨le_trans ht (le_of_lt hct), ?_⟩
  rw [hscore]
  exact rowConf_le_one m flag i hcols (fun j h4 hj => hle m hm i j hi h4 hj) hobj

/-- C9 witness: the example tensor, whose class scores are 0.9 and 0.1. -/
theorem getDetections_confidence_unit_witness :
    getDetections normalizedExample ⟨1280, 960⟩ (1 / 4) (f32Q (9 / 20)) 640 640 true =
      some [⟨0, f32Q (9 / 10), ⟨512, 384, 256, 192⟩⟩] ∧
    ((0 : ℚ) ≤ f32Q (9 / 10) ∧ f32Q (9 / 10) ≤ 1) :=
  ⟨by decide!,
    getDetections_confidence_unit normalizedExample ⟨1280, 960⟩ (1 / 4) (f32Q (9 / 20)) 640 640
      true [⟨0, f32Q (9 / 10), ⟨512, 384, 256, 192⟩⟩] (by decide!)
      (by
        intro m hm i j hi h4 hj
        have hm' : m = ⟨1, 6, fun i j => normalizedExample.data (i * 6 + j)⟩ :=
          (Option.some.inj hm).symm
        subst hm'
        have hi0 : i = 0 := by
          have : i < 1 := hi
          omega
        have hj6 : j < 6 := hj
        subst hi0
        interval_cases j <;> decide!)
      ⟨0, f32Q (9 / 10), ⟨512, 384, 256, 192⟩⟩ (List.mem_singleton.mpr rfl)⟩

/-! ## C10: order of the result -/

/-- C10: the sequence returned by `getDetections` is in suppression-selection
order.  Confidences are non-increasing along it; and its detections can be
paired with the rows they come from so that, of two detections of equal
confidence, the one from the earlier row comes first. -/
theorem getDetections_order (output : Mat) (orig : Size) (t n : ℚ) (inputW inputH : Int)
    (flag : Bool) (dets : List Detection)
    (h : getDetections output orig t n inputW inputH flag = some dets) :
    dets.Pairwise (fun d e => e.confidence ≤ d.confidence) ∧
    ∃ rd : List (Nat × Detection), rd.map Prod.snd = dets ∧
      (∀ p ∈ rd, ∃ m, out2dOf output = some m ∧ p.1 < m.rows ∧
        (rowCandidate m orig t (scaleOf orig.width inputW)
          (scaleOf orig.height inputH) flag p.1).map Candidate.toDetection = some p.2) ∧
      rd.Pairwise fun p q =>
        q.2.confidence < p.2.confidence ∨ (p.2.confidence = q.2.confidence ∧ p.1 < q.1) := by
  have key : ∃ rd : List (Nat × Detection), rd.map Prod.snd = dets ∧
      (∀ p ∈ rd, ∃ m, out2dOf output = some m ∧ p.1 < m.rows ∧
        (rowCandidate m orig t (scaleOf orig.width inputW)
          (scaleOf orig.height inputH) flag p.1).map Candidate.toDetection = some p.2) ∧
      rd.Pairwise fun p q =>
        q.2.confidence < p.2.confidence ∨ (p.2.confidence = q.2.confidence ∧ p.1 < q.1) := by
    rcases getDetections_dichotomy output with hbad | ⟨m, _, hm, _, hgood⟩
    · rw [hbad] at h
      rw [← Option.some.inj h]
      exact ⟨[], rfl, by simp, List.Pairwise.nil⟩
    · rw [hgood] at h
      by_cases hn : 0 ≤ t ∧ 0 ≤ n
      · rw [if_pos hn] at h
        obtain ⟨K, hK, hmem, hpw⟩ := suppress_tagged t n _
          (taggedCandidates_pairwise m orig t (scaleOf orig.width inputW)
            (scaleOf orig.height inputH) flag)
        rw [taggedCandidates_snd] at hK
        refine ⟨K.map fun p => (p.1, p.2.toDetection), ?_, ?_, ?_⟩
        · rw [← Option.some.inj h, ← hK, List.map_map, List.map_map]
          rfl
        · intro p hp
          obtain ⟨q, hq, rfl⟩ := List.mem_map.mp hp
          obtain ⟨hlt, hrow⟩ := mem_taggedCandidates _ _ _ _ _ _ q (hmem q hq)
          exact ⟨m, hm, hlt, by rw [hrow]; rfl⟩
        · exact List.pairwise_map.mpr hpw
      · rw [if_neg hn] at h
        exact absurd h (by simp)
  refine ⟨?_, key⟩
  obtain ⟨rd, hrd, _, hpw⟩ := key
  rw [← hrd]
  apply List.pairwise_map.mpr
  refine hpw.imp ?_
  intro p q hpq
  rcases hpq with h1 | h1
  · exact le_of_lt h1
  · exact le_of_eq h1.1.symm

/-- C10 witness: three disjoint boxes with best scores 0.6, 0.9, 0.6 in rows
0, 1, 2 are returned in the order row 1, row 0, row 2. -/
theorem getDetections_order_witness :
    getDetections tieExample ⟨1280, 960⟩ (1 / 4) (f32Q (9 / 20)) 640 640 true =
      some [⟨0, f32Q (9 / 10), ⟨832, 624, 256, 192⟩⟩, ⟨0, f32Q (3 / 5), ⟨192, 144, 256, 192⟩⟩,
        ⟨0, f32Q (3 / 5), ⟨192, 624, 256, 192⟩⟩] ∧
    ([⟨0, f32Q (9 / 10), ⟨832, 624, 256, 192⟩⟩, ⟨0, f32Q (3 / 5), ⟨192, 144, 256, 192⟩⟩,
        ⟨0, f32Q (3 / 5), ⟨192, 624, 256, 192⟩⟩] : List Detection).Pairwise
      (fun d e => e.confidence ≤ d.confidence) :=
  ⟨by decide!,
    (getDetections_order tieExample ⟨1280, 960⟩ (1 / 4) (f32Q (9 / 20)) 640 640 true _
      (by decide!)).1⟩

/-! ## C11: class index of a row -/

/-- C11: the class id of the candidate of a row is the argmax over the row's
class-score columns (columns `4..` for ObjectnessFree, `5..` for
ObjectnessPresent), counted from the first class column, the lowest index
winning ties; every returned detection is such a candidate, so
`0 ≤ classId < columns - class start`. -/
theorem getDetections_classId_argmax (output : Mat) (m : Mat2d) (orig : Size) (t n : ℚ)
    (inputW inputH : Int) (flag : Bool) (hm : out2dOf output = some m) (hc : 6 ≤ m.cols) :
    (∀ i c, rowCandidate m orig t (scaleOf orig.width inputW)
        (scaleOf orig.height inputH) flag i = some c →
      ∃ k : Nat, c.toDetection.classId = (k : Int) ∧ k < m.cols - clsStart flag ∧
        (∀ j, j < m.cols - clsStart flag →
          m.elem i (clsStart flag + j) ≤ m.elem i (clsStart flag + k)) ∧
        (∀ j, j < k → m.elem i (clsStart flag + j) < m.elem i (clsStart flag + k))) ∧
    (∀ dets, getDetections output orig t n inputW inputH flag = some dets → ∀ d ∈ dets,
      (∃ i c, i < m.rows ∧ rowCandidate m orig t (scaleOf orig.width inputW)
        (scaleOf orig.height inputH) flag i = some c ∧ d = c.toDetection) ∧
      0 ≤ d.classId ∧ d.classId < ((m.cols - clsStart flag : Nat) : Int)) := by
  have hrow : ∀ i c, rowCandidate m orig t (scaleOf orig.width inputW)
        (scaleOf orig.height inputH) flag i = some c →
      ∃ k : Nat, c.toDetection.classId = (k : Int) ∧ k < m.cols - clsStart flag ∧
        (∀ j, j < m.cols - clsStart flag →
          m.elem i (clsStart flag + j) ≤ m.elem i (clsStart flag + k)) ∧
        (∀ j, j < k → m.elem i (clsStart flag + j) < m.elem i (clsStart flag + k)) := by
    intro i c hrc
    obtain ⟨_, _, _, _, hcls, _⟩ := rowCandidate_some _ _ _ _ _ _ _ _ hrc
    obtain ⟨h1, h2, h3, h4⟩ := rowScores_argmax m flag i hc
    refine ⟨(minMaxLoc (rowScores m flag i)).2, hcls, h1, ?_, ?_⟩
    · intro j hj
      rw [h2]
      exact h3 j hj
    · intro j hj
      rw [h2]
      exact h4 j hj
  refine ⟨hrow, ?_⟩
  intro dets hdets d hd
  obtain ⟨m', c, i, hm', _, hi, hrc, hdc, _, _, _⟩ :=
    getDetections_mem output orig t n inputW inputH flag dets hdets d hd
  have hmm : m' = m := Option.some.inj (hm'.symm.trans hm)
  subst hmm
  obtain ⟨k, hk, hlt, _, _⟩ := hrow i c hrc
  refine ⟨⟨i, c, hi, hrc, hdc⟩, ?_, ?_⟩
  · rw [hdc, hk]
    exact Int.natCast_nonneg k
  · rw [hdc, hk]
    exact Int.ofNat_lt.mpr hlt

/-- C11 witness: the row with class scores `[0.1, 0.6]` is returned with
class id 1. -/
theorem getDetections_classId_argmax_witness :
    getDetections classOneExample ⟨1280, 960⟩ (1 / 4) (f32Q (9 / 20)) 640 640 true =
      some [⟨1, f32Q (3 / 5), ⟨512, 384, 256, 192⟩⟩] ∧
    (0 : Int) ≤ (⟨1, f32Q (3 / 5), ⟨512, 384, 256, 192⟩⟩ : Detection).classId ∧
    (⟨1, f32Q (3 / 5), ⟨512, 384, 256, 192⟩⟩ : Detection).classId < ((6 - clsStart true : Nat) : Int) :=
  ⟨by decide!,
    ((getDetections_classId_argmax classOneExample
      ⟨1, 6, fun i j => classOneExample.data (i * 6 + j)⟩ ⟨1280, 960⟩ (1 / 4) (f32Q (9 / 20)) 640 640
      true rfl (by decide)).2 [⟨1, f32Q (3 / 5), ⟨512, 384, 256, 192⟩⟩] (by decide!)
      ⟨1, f32Q (3 / 5), ⟨512, 384, 256, 192⟩⟩ (List.mem_singleton.mpr rfl)).2⟩

/-! ## C12: confidence of a row -/

/-- C13 (as stated, refuted): with `nmsThreshold = 0.45f` both rows of
`overlapTieExample` are returned, although the intersection over union of
their boxes, `9/20`, exceeds `nmsThreshold`: the overlap that `NMSBoxes`
computes in `float` is `0.45f`, which is not above the threshold. -/
theorem duplicates_survive_rounding :
    getDetections overlapTieExample ⟨640, 640⟩ (1 / 4) (f32Q (9 / 20)) 640 640 true =
      some [⟨0, f32Q (9 / 10), ⟨0, 0, 29, 10⟩⟩, ⟨0, f32Q (3 / 5), ⟨11, 0, 29, 10⟩⟩] ∧
    iou ⟨0, 0, 29, 10⟩ ⟨11, 0, 29, 10⟩ = 9 / 20 ∧
    ¬ (iou ⟨0, 0, 29, 10⟩ ⟨11, 0, 29, 10⟩ ≤ f32Q (9 / 20)) ∧
    rectOverlap ⟨0, 0, 29, 10⟩ ⟨11, 0, 29, 10⟩ = FVal.fin (f32Q (9 / 20)) := by
  decide!

/-- C13 (amended): any two detections at different places of the sequence
returned by `getDetections` have boxes whose overlap, as `NMSBoxes` computes
it in `float` (`rectOverlap`: one minus the Jaccard distance, the quotient
and the differences rounded), is at most `nmsThreshold`, in either order of
the two boxes. -/
theorem getDetections_no_duplicates (output : Mat) (orig : Size) (t n : ℚ)
    (inputW inputH : Int) (flag : Bool) (dets : List Detection)
    (h : getDetections output orig t n inputW inputH flag = some dets) :
    dets.Pairwise fun d e =>
      (rectOverlap d.box e.box).le n = true ∧ (rectOverlap e.box d.box).le n = true := by
  rcases getDetections_some output orig t n inputW inputH flag dets h with
    rfl | ⟨m, _, _, _, _, rfl⟩
  · exact List.Pairwise.nil
  · apply List.pairwise_map.mpr
    refine List.Pairwise.imp ?_ (suppress_pairwise t n _)
    intro a b hab
    have h1 : (rectOverlap b.box a.box).le n = true := hab
    exact ⟨by rw [rectOverlap_comm]; exact h1, h1⟩

/-- C13 witness: the two detections of `twoApartExample` have disjoint
boxes. -/
theorem getDetections_no_duplicates_witness :
    getDetections twoApartExample ⟨1280, 960⟩ (1 / 4) (f32Q (9 / 20)) 640 640 true =
      some [⟨0, f32Q (9 / 10), ⟨832, 624, 256, 192⟩⟩, ⟨0, f32Q (3 / 5), ⟨192, 144, 256, 192⟩⟩] ∧
    ([⟨0, f32Q (9 / 10), ⟨832, 624, 256, 192⟩⟩, ⟨0, f32Q (3 / 5), ⟨192, 144, 256, 192⟩⟩] :
      List Detection).Pairwise
        (fun d e => (rectOverlap d.box e.box).le (f32Q (9 / 20)) = true ∧
          (rectOverlap e.box d.box).le (f32Q (9 / 20)) = true) :=
  ⟨by decide!,
    getDetections_no_duplicates twoApartExample ⟨1280, 960⟩ (1 / 4) (f32Q (9 / 20)) 640 640 true
      _ (by decide!)⟩

/-! ## C14: suppression ignores class ids -/

/-- C14 (as stated, refuted), in two ways.  The two rows of
`classPairExample` survive as candidates of classes 0 and 1 with confidences
0.9 and 0.6 and boxes of IoU 1 above `nmsThreshold = 0.45f`, yet with
`confThreshold = -1` they do not reduce to the higher-confidence one: the
call returns nothing, `NMSBoxes` rejecting the negative score threshold.
And the two rows of `overlapTieClassExample`, of classes 0 and 1, have boxes
of IoU `9/20` above `nmsThreshold = 0.45f`, yet both are returned: the
overlap computed in `float` is `0.45f` itself. -/
theorem class_pair_not_reduced :
    (candidates ⟨2, 6, fun i j => classPairExample.data (i * 6 + j)⟩ ⟨1280, 960⟩ (-1)
          (scaleOf 1280 640) (scaleOf 960 640) true
        = [⟨⟨512, 384, 256, 192⟩, f32Q (9 / 10), 0⟩, ⟨⟨512, 384, 256, 192⟩, f32Q (3 / 5), 1⟩] ∧
      f32Q (9 / 20) < iou ⟨512, 384, 256, 192⟩ ⟨512, 384, 256, 192⟩ ∧
      getDetections classPairExample ⟨1280, 960⟩ (-1) (f32Q (9 / 20)) 640 640 true = none) ∧
    (candidates ⟨2, 6, fun i j => overlapTieClassExample.data (i * 6 + j)⟩ ⟨640, 640⟩ (1 / 4)
          (scaleOf 640 640) (scaleOf 640 640) true
        = [⟨⟨0, 0, 29, 10⟩, f32Q (9 / 10), 0⟩, ⟨⟨11, 0, 29, 10⟩, f32Q (3 / 5), 1⟩] ∧
      f32Q (9 / 20) < iou ⟨0, 0, 29, 10⟩ ⟨11, 0, 29, 10⟩ ∧
      getDetections overlapTieClassExample ⟨640, 640⟩ (1 / 4) (f32Q (9 / 20)) 640 640 true =
        some [⟨0, f32Q (9 / 10), ⟨0, 0, 29, 10⟩⟩, ⟨1, f32Q (3 / 5), ⟨11, 0, 29, 10⟩⟩]) := by
  decide!

/-- C14 (amended): suppression is class-agnostic.  For two calls with the same
thresholds whose surviving candidates have the same boxes and the same
confidences in the same order, whatever their class ids, `NMSBoxes` makes
the same decision (the same index list, or the same failure), each call
returns the detections of its own candidates at those indices, and the two
results carry the same boxes and confidences.  In particular, for
non-negative thresholds, two surviving candidates, of any classes, whose
boxes have an overlap, as `NMSBoxes` computes it in `float` (`rectOverlap`),
above `nmsThreshold` reduce to the one of higher confidence (for a negative
threshold the call fails). -/
theorem getDetections_class_agnostic (output₁ output₂ : Mat) (m₁ m₂ : Mat2d)
    (orig₁ orig₂ : Size) (t n : ℚ) (inputW₁ inputH₁ inputW₂ inputH₂ : Int) (flag₁ flag₂ : Bool)
    (he₁ : output₁.empty = false) (hm₁ : out2dOf output₁ = some m₁) (hc₁ : 6 ≤ m₁.cols)
    (he₂ : output₂.empty = false) (hm₂ : out2dOf output₂ = some m₂) (hc₂ : 6 ≤ m₂.cols)
    (hb : (candidates m₁ orig₁ t (scaleOf orig₁.width inputW₁)
        (scaleOf orig₁.height inputH₁) flag₁).map Candidate.box =
      (candidates m₂ orig₂ t (scaleOf orig₂.width inputW₂)
        (scaleOf orig₂.height inputH₂) flag₂).map Candidate.box)
    (hs : (candidates m₁ orig₁ t (scaleOf orig₁.width inputW₁)
        (scaleOf orig₁.height inputH₁) flag₁).map Candidate.score =
      (candidates m₂ orig₂ t (scaleOf orig₂.width inputW₂)
        (scaleOf orig₂.height inputH₂) flag₂).map Candidate.score) :
    (∃ keep : Option (List Nat),
      getDetections output₁ orig₁ t n inputW₁ inputH₁ flag₁ =
        keep.map (List.map (detectionAt (candidates m₁ orig₁ t
          (scaleOf orig₁.width inputW₁) (scaleOf orig₁.height inputH₁) flag₁))) ∧
      getDetections output₂ orig₂ t n inputW₂ inputH₂ flag₂ =
        keep.map (List.map (detectionAt (candidates m₂ orig₂ t
          (scaleOf orig₂.width inputW₂) (scaleOf orig₂.height inputH₂) flag₂)))) ∧
    (getDetections output₁ orig₁ t n inputW₁ inputH₁ flag₁).map
        (List.map fun d => (d.box, d.confidence)) =
      (getDetections output₂ orig₂ t n inputW₂ inputH₂ flag₂).map
        (List.map fun d => (d.box, d.confidence)) ∧
    (∀ a b : Candidate,
      (candidates m₁ orig₁ t (scaleOf orig₁.width inputW₁)
          (scaleOf orig₁.height inputH₁) flag₁ = [a, b] ∨
        candidates m₁ orig₁ t (scaleOf orig₁.width inputW₁)
          (scaleOf orig₁.height inputH₁) flag₁ = [b, a]) →
      b.score < a.score → (rectOverlap a.box b.box).le n = false →
      getDetections output₁ orig₁ t n inputW₁ inputH₁ flag₁ =
        if 0 ≤ t ∧ 0 ≤ n then some [a.toDetection] else none) := by
  have h1 := getDetections_keep output₁ m₁ orig₁ t n inputW₁ inputH₁ flag₁ he₁ hm₁ hc₁
  have h2 := getDetections_keep output₂ m₂ orig₂ t n inputW₂ inputH₂ flag₂ he₂ hm₂ hc₂
  rw [← hb, ← hs] at h2
  refine ⟨⟨_, h1, h2⟩, ?_, ?_⟩
  · rw [h1, h2]
    exact map_detectionAt_box_conf _ _ hb hs _
  · intro a b hl hab hov
    have hbmem : b ∈ candidates m₁ orig₁ t (scaleOf orig₁.width inputW₁)
        (scaleOf orig₁.height inputH₁) flag₁ := by
      rcases hl with h | h <;> rw [h] <;> simp
    obtain ⟨i, _, hrc⟩ := (mem_candidates _ _ _ _ _ _ b).mp hbmem
    have htb : t ≤ b.score := (rowCandidate_some _ _ _ _ _ _ _ _ hrc).2.2.2.1
    rw [getDetections_eq, he₁, hm₁]
    simp only [Bool.false_eq_true, if_false, if_neg (not_lt.mpr hc₁)]
    rw [suppress_pair_covered t n a b _ hl hab (lt_of_le_of_lt htb hab) hov]
    rfl

/-- C14 witness: `twoRowExample` (classes 0 and 0) and `classPairExample`
(classes 0 and 1) have the same boxes and confidences; both keep index 0
only, and return the same box and confidence. -/
theorem getDetections_class_agnostic_witness :
    getDetections twoRowExample ⟨1280, 960⟩ (1 / 4) (f32Q (9 / 20)) 640 640 true =
      some [⟨0, f32Q (9 / 10), ⟨512, 384, 256, 192⟩⟩] ∧
    getDetections classPairExample ⟨1280, 960⟩ (1 / 4) (f32Q (9 / 20)) 640 640 true =
      some [⟨0, f32Q (9 / 10), ⟨512, 384, 256, 192⟩⟩] ∧
    (getDetections twoRowExample ⟨1280, 960⟩ (1 / 4) (f32Q (9 / 20)) 640 640 true).map
        (List.map fun d => (d.box, d.confidence)) =
      (getDetections classPairExample ⟨1280, 960⟩ (1 / 4) (f32Q (9 / 20)) 640 640 true).map
        (List.map fun d => (d.box, d.confidence)) :=
  ⟨by decide!, by decide!,
    (getDetections_class_agnostic twoRowExample classPairExample
      ⟨2, 6, fun i j => twoRowExample.data (i * 6 + j)⟩
      ⟨2, 6, fun i j => classPairExample.data (i * 6 + j)⟩ ⟨1280, 960⟩ ⟨1280, 960⟩
      (1 / 4) (f32Q (9 / 20)) 640 640 640 640 true true (by decide) rfl (by decide) (by decide)
      rfl (by decide) (by decide!) (by decide!)).2.1⟩

/-! ## C15: the confidence floor of the suppression -/

/-- C15 (code defect at the boundary): the single row of `boundaryExample`
has confidence exactly equal to `confThreshold = 0.25` and a non-empty
clamped box; the row loop, which skips a row only when its confidence is
below the threshold, pushes it as a candidate, yet no detection is returned:
`NMSBoxes`, called with the same value as floor, lists only the scores
strictly above it. -/
theorem floor_drops_equal_confidence :
    rowConf ⟨1, 6, fun i j => boundaryExample.data (i * 6 + j)⟩ true 0 = 1 / 4 ∧
    candidates ⟨1, 6, fun i j => boundaryExample.data (i * 6 + j)⟩ ⟨1280, 960⟩ (1 / 4)
        (scaleOf 1280 640) (scaleOf 960 640) true
      = [⟨⟨512, 384, 256, 192⟩, 1 / 4, 0⟩] ∧
    NMSBoxes [⟨512, 384, 256, 192⟩] [1 / 4] (1 / 4) (f32Q (9 / 20)) = some [] ∧
    getDetections boundaryExample ⟨1280, 960⟩ (1 / 4) (f32Q (9 / 20)) 640 640 true = some [] := by
  decide!

/-! ## C16: the layout normalizer -/

/-- C16: for a non-empty rank-3 tensor of shape `[1, d1, d2]` the normalized
matrix has `max d1 d2` rows and `min d1 d2` columns, and its entry `(i, j)`
is `tensor[0][i][j]` (offset `i * d2 + j`) when `d1 > d2` and
`tensor[0][j][i]` (offset `j * d2 + i`) otherwise; a rank-2 tensor is used
unchanged. -/
theorem out2dOf_layout (output : Mat) :
    (∀ d1 d2, output.size = [1, d1, d2] → output.empty = false →
      ∃ m, out2dOf output = some m ∧ m.rows = max d1 d2 ∧ m.cols = min d1 d2 ∧
        ∀ i j, m.elem i j =
          if d1 > d2 then output.data (i * d2 + j) else output.data (j * d2 + i)) ∧
    (∀ r c, output.size = [r, c] →
      ∃ m, out2dOf output = some m ∧ m.rows = r ∧ m.cols = c ∧
        ∀ i j, m.elem i j = output.data (i * c + j)) := by
  constructor
  · intro d1 d2 hsz hne
    have hprod : d1 * d2 ≠ 0 := by
      unfold Mat.empty at hne
      simp [hsz] at hne
      exact Nat.mul_ne_zero hne.1 hne.2
    have hd1 : 0 < d1 := Nat.pos_of_ne_zero (fun h => hprod (by rw [h, Nat.zero_mul]))
    have hc : output.size.prod / d1 = d2 := by
      rw [hsz]
      simp only [List.prod_cons, List.prod_nil, Nat.mul_one, Nat.one_mul]
      exact Nat.mul_div_cancel_left d2 hd1
    unfold out2dOf
    rw [hsz]
    simp only [ne_eq, not_true_eq_false, if_false]
    rw [← hsz, hc]
    by_cases h : d1 > d2
    · rw [if_pos h]
      exact ⟨_, rfl, (max_eq_left (le_of_lt h)).symm, (min_eq_right (le_of_lt h)).symm,
        fun i j => by rw [if_pos h]⟩
    · rw [if_neg h]
      exact ⟨_, rfl, (max_eq_right (not_lt.mp h)).symm, (min_eq_left (not_lt.mp h)).symm,
        fun i j => by rw [if_neg h]⟩
  · intro r c hsz
    unfold out2dOf
    rw [hsz]
    exact ⟨_, rfl, rfl, rfl, fun i j => rfl⟩

/-- C16 witness: the `[1, 2, 3]` tensor with elements `0..5` is normalized
to 3 rows of 2 columns, transposed: entry `(2, 1)` is `tensor[0][1][2] = 5`. -/
theorem out2dOf_layout_witness :
    ∃ m, out2dOf wideExample = some m ∧ m.rows = max 2 3 ∧ m.cols = min 2 3 ∧
      ∀ i j, m.elem i j =
        if 2 > 3 then wideExample.data (i * 3 + j) else wideExample.data (j * 3 + i) :=
  (out2dOf_layout wideExample).1 2 3 rfl (by decide)

/-! ## C17: the layout flag of `main` and the orientation branch -/

/-- C17 (code at the failing input): for the non-empty tensor of shape
`[1, 6, 6]` the flag computed by `main` is false (ObjectnessPresent), while
`getDetections` takes the reshape-then-transpose branch. -/
theorem square_tensor_flag_differs :
    squareExample.empty = false ∧ isYOLOv8Layout squareExample = false ∧
      takesTranspose squareExample = true := by
  decide

/-- Outside the square case the two decisions agree. -/
theorem flag_eq_takesTranspose (output : Mat) (d1 d2 : Nat) (hsz : output.size = [1, d1, d2])
    (hne : d1 ≠ d2) : isYOLOv8Layout output = takesTranspose output := by
  unfold isYOLOv8Layout takesTranspose
  rw [hsz]
  simp only [List.length_cons, List.length_nil, List.getD_cons_succ, List.getD_cons_zero,
    beq_self_eq_true, Bool.true_and]
  by_cases h : d1 < d2
  · have h' : ¬ d1 > d2 := by omega
    simp [h, h']
  · have h' : d1 > d2 := by omega
    simp [h, h']

/-! ## C18: normalized boxes do not depend on the input size -/

/-- C18: when every row of the normalized matrix has all four box
attributes at most 1.5, the result of `getDetections` is the same for any
two (positive) input sizes, all other arguments being equal. -/
theorem getDetections_input_size_irrelevant (output : Mat) (orig : Size) (t n : ℚ)
    (inputW₁ inputH₁ inputW₂ inputH₂ : Int) (flag : Bool)
    (hnorm : ∀ m, out2dOf output = some m → ∀ i, i < m.rows →
      m.elem i 0 ≤ 3 / 2 ∧ m.elem i 1 ≤ 3 / 2 ∧ m.elem i 2 ≤ 3 / 2 ∧ m.elem i 3 ≤ 3 / 2)
    (_hw₁ : 0 < inputW₁) (_hh₁ : 0 < inputH₁) (_hw₂ : 0 < inputW₂) (_hh₂ : 0 < inputH₂) :
    getDetections output orig t n inputW₁ inputH₁ flag =
      getDetections output orig t n inputW₂ inputH₂ flag := by
  rcases getDetections_dichotomy output with hbad | ⟨m, _, hm, _, hgood⟩
  · rw [hbad, hbad]
  · rw [hgood, hgood]
    have hc : candidates m orig t (scaleOf orig.width inputW₁)
        (scaleOf orig.height inputH₁) flag =
      candidates m orig t (scaleOf orig.width inputW₂)
        (scaleOf orig.height inputH₂) flag := by
      unfold candidates
      apply List.filterMap_congr
      intro i hi
      apply rowCandidate_normalized
      obtain ⟨h0, h1, h2, h3⟩ := hnorm m hm i (List.mem_range.mp hi)
      simp [rowNormalized, h0, h1, h2, h3]
    rw [hc]

/-- C18 witness: the normalized example gives the same detection for input
sizes 640x640 and 320x416. -/
theorem getDetections_input_size_irrelevant_witness :
    getDetections normalizedExample ⟨1280, 960⟩ (1 / 4) (f32Q (9 / 20)) 640 640 true =
      some [⟨0, f32Q (9 / 10), ⟨512, 384, 256, 192⟩⟩] ∧
    getDetections normalizedExample ⟨1280, 960⟩ (1 / 4) (f32Q (9 / 20)) 640 640 true =
      getDetections normalizedExample ⟨1280, 960⟩ (1 / 4) (f32Q (9 / 20)) 320 416 true :=
  ⟨by decide!,
    getDetections_input_size_irrelevant normalizedExample ⟨1280, 960⟩ (1 / 4) (f32Q (9 / 20))
      640 640 320 416 true
      (by
        intro m hm i hi
        have hm' : m = ⟨1, 6, fun i j => normalizedExample.data (i * 6 + j)⟩ :=
          (Option.some.inj hm).symm
        subst hm'
        have hi0 : i = 0 := by
          have : i < 1 := hi
          omega
        subst hi0
        decide!)
      (by decide) (by decide) (by decide) (by decide)⟩

/-! ## C19: index safety -/

/-- C19: `getDetections` never reads outside a row of the normalized matrix
or outside the vectors `boxes`, `scores`, `classIds`: run with every read
checked (`getDetectionsChecked`) it completes, with the same result.  In
particular, when the row loop is reached (at least 6 columns), for both
layout flags and every row the loop body with every column read checked
against the row completes with the result of the unchecked body, the
class-score slice has `cols - clsStart >= 1` entries, the position returned
by `minMaxLoc` lies inside it, and every index returned by `NMSBoxes` is
below the common length of the three vectors. -/
theorem getDetections_index_safety (output : Mat) (orig : Size) (t n : ℚ)
    (inputW inputH : Int) (flag : Bool) :
    getDetectionsChecked output orig t n inputW inputH flag =
      some (getDetections output orig t n inputW inputH flag) ∧
    ∀ m, out2dOf output = some m → 6 ≤ m.cols →
      (∀ i, rowCandidateChecked m orig t (scaleOf orig.width inputW)
            (scaleOf orig.height inputH) flag i =
          some (rowCandidate m orig t (scaleOf orig.width inputW)
            (scaleOf orig.height inputH) flag i) ∧
        (rowScores m flag i).length = m.cols - clsStart flag ∧
        1 ≤ (rowScores m flag i).length ∧
        (minMaxLoc (rowScores m flag i)).2 < (rowScores m flag i).length) ∧
      ∀ keep, NMSBoxes
          ((candidates m orig t (scaleOf orig.width inputW)
            (scaleOf orig.height inputH) flag).map Candidate.box)
          ((candidates m orig t (scaleOf orig.width inputW)
            (scaleOf orig.height inputH) flag).map Candidate.score) t n = some keep →
        ∀ idx ∈ keep,
          idx < ((candidates m orig t (scaleOf orig.width inputW)
            (scaleOf orig.height inputH) flag).map Candidate.box).length ∧
          idx < ((candidates m orig t (scaleOf orig.width inputW)
            (scaleOf orig.height inputH) flag).map Candidate.score).length ∧
          idx < ((candidates m orig t (scaleOf orig.width inputW)
            (scaleOf orig.height inputH) flag).map Candidate.classId).length := by
  refine ⟨getDetectionsChecked_eq output orig t n inputW inputH flag, ?_⟩
  intro m _ hc
  refine ⟨?_, ?_⟩
  · intro i
    have hlen : (rowScores m flag i).length = m.cols - clsStart flag := by
      simp [rowScores]
    refine ⟨rowCandidateChecked_eq m orig t _ _ flag i hc, hlen, ?_, ?_⟩
    · rw [hlen]
      rcases clsStart_cases flag with h | h <;> omega
    · rw [hlen]
      exact (rowScores_argmax m flag i hc).1
  · intro keep hk idx hidx
    have := mem_NMSBoxes_lt _ _ t n keep hk idx hidx
    simp only [List.length_map] at this ⊢
    exact ⟨this.1, this.1, this.1⟩

/-- C19 witness: the example tensor, for both layout flags; and a row of 4
columns, which the row loop never sees, would be read out of range. -/
theorem getDetections_index_safety_witness :
    (getDetectionsChecked normalizedExample ⟨1280, 960⟩ (1 / 4) (f32Q (9 / 20)) 640 640 true =
      some (some [⟨0, f32Q (9 / 10), ⟨512, 384, 256, 192⟩⟩])) ∧
    (rowCandidateChecked ⟨1, 6, fun i j => normalizedExample.data (i * 6 + j)⟩ ⟨1280, 960⟩
        (1 / 4) (scaleOf 1280 640) (scaleOf 960 640) false 0 =
      some (rowCandidate ⟨1, 6, fun i j => normalizedExample.data (i * 6 + j)⟩ ⟨1280, 960⟩
        (1 / 4) (scaleOf 1280 640) (scaleOf 960 640) false 0)) ∧
    (rowCandidateChecked ⟨1, 4, fun i j => normalizedExample.data (i * 6 + j)⟩ ⟨1280, 960⟩
        (1 / 4) (scaleOf 1280 640) (scaleOf 960 640) false 0 = none) :=
  ⟨(getDetections_index_safety normalizedExample ⟨1280, 960⟩ (1 / 4) (f32Q (9 / 20)) 640 640
      true).1.trans (by decide!),
    (((getDetections_index_safety normalizedExample ⟨1280, 960⟩ (1 / 4) (f32Q (9 / 20)) 640 640
      false).2 ⟨1, 6, fun i j => normalizedExample.data (i * 6 + j)⟩ rfl (by decide)).1 0).1,
    by decide!⟩

/-! ## C20: suppression only removes covered candidates -/

/-- C20 (as stated, refuted): with `nmsThreshold = 0.1f` the second row of
`thinOverlapExample` survives the row loop with confidence 0.6 above
`confThreshold = 0.25` and is absent from the result, although the
intersection over union of its box with that of the one returned detection,
`1/10`, is not above `nmsThreshold`: the overlap that `NMSBoxes` computes in
`float` is `838861 / 2^23`, which is above `0.1f`. -/
theorem removed_without_cover :
    candidates ⟨2, 6, fun i j => thinOverlapExample.data (i * 6 + j)⟩ ⟨640, 640⟩ (1 / 4)
        (scaleOf 640 640) (scaleOf 640 640) true
      = [⟨⟨0, 0, 10, 10⟩, f32Q (9 / 10), 0⟩, ⟨⟨0, 0, 10, 1⟩, f32Q (3 / 5), 0⟩] ∧
    (1 / 4 : ℚ) < f32Q (3 / 5) ∧
    getDetections thinOverlapExample ⟨640, 640⟩ (1 / 4) (f32Q (1 / 10)) 640 640 true =
      some [⟨0, f32Q (9 / 10), ⟨0, 0, 10, 10⟩⟩] ∧
    iou ⟨0, 0, 10, 1⟩ ⟨0, 0, 10, 10⟩ = 1 / 10 ∧
    ¬ (f32Q (1 / 10) < iou ⟨0, 0, 10, 1⟩ ⟨0, 0, 10, 10⟩) ∧
    rectOverlap ⟨0, 0, 10, 1⟩ ⟨0, 0, 10, 10⟩ = FVal.fin (838861 / 8388608) ∧
    f32Q (1 / 10) < 838861 / 8388608 := by
  decide!

/-- C20 (amended): suppression only removes covered candidates.  The returned
detections can be paired with the rows they come from; every row candidate
with confidence strictly above `confThreshold` whose row is not among them
has a box whose overlap with the box of some returned detection, as
`NMSBoxes` computes it in `float` (`rectOverlap`), exceeds `nmsThreshold`,
that detection having confidence at least its own. -/
theorem getDetections_removed_covered (output : Mat) (m : Mat2d) (orig : Size) (t n : ℚ)
    (inputW inputH : Int) (flag : Bool) (dets : List Detection)
    (hm : out2dOf output = some m) (hc : 6 ≤ m.cols)
    (h : getDetections output orig t n inputW inputH flag = some dets) :
    ∃ rd : List (Nat × Detection), rd.map Prod.snd = dets ∧
      (∀ p ∈ rd, p.1 < m.rows ∧
        (rowCandidate m orig t (scaleOf orig.width inputW)
          (scaleOf orig.height inputH) flag p.1).map Candidate.toDetection = some p.2) ∧
      ∀ i c, i < m.rows →
        rowCandidate m orig t (scaleOf orig.width inputW)
          (scaleOf orig.height inputH) flag i = some c →
        t < c.score → (i, c.toDetection) ∉ rd →
        ∃ d ∈ dets, (rectOverlap c.box d.box).le n = false ∧ c.score ≤ d.confidence := by
  by_cases he : output.empty = true
  · have hrows : m.rows = 0 := by
      by_contra hne
      have := out2dOf_nonempty output m hm (by omega) (by omega)
      rw [this] at he
      exact absurd he (by simp)
    rw [getDetections_eq, if_pos he] at h
    refine ⟨[], by rw [← Option.some.inj h]; rfl, by simp, ?_⟩
    intro i c hi
    omega
  · rw [getDetections_eq, if_neg he, hm] at h
    simp only [if_neg (not_lt.mpr hc)] at h
    by_cases hn : 0 ≤ t ∧ 0 ≤ n
    · rw [if_pos hn] at h
      have hdets := (Option.some.inj h).symm
      obtain ⟨K, hK, hmem, hcov⟩ := suppress_tagged_covered t n
        (taggedCandidates m orig t (scaleOf orig.width inputW)
          (scaleOf orig.height inputH) flag)
      rw [taggedCandidates_snd] at hK
      refine ⟨K.map fun p => (p.1, p.2.toDetection), ?_, ?_, ?_⟩
      · rw [hdets, ← hK, List.map_map, List.map_map]
        rfl
      · intro p hp
        obtain ⟨q, hq, rfl⟩ := List.mem_map.mp hp
        obtain ⟨hlt, hrow⟩ := mem_taggedCandidates _ _ _ _ _ _ q (hmem q hq)
        exact ⟨hlt, by rw [hrow]; rfl⟩
      · intro i c hi hrc hct hnot
        have hT := mem_taggedCandidates_of m orig t _ _ flag i c hi hrc
        have hnK : (i, c) ∉ K := by
          intro hin
          exact hnot (List.mem_map.mpr ⟨(i, c), hin, rfl⟩)
        obtain ⟨q, hq, hov, hle⟩ := hcov (i, c) hT hct hnK
        refine ⟨q.2.toDetection, ?_, hov, hle⟩
        rw [hdets, ← hK, List.map_map]
        exact List.mem_map.mpr ⟨q, hq, rfl⟩
    · rw [if_neg hn] at h
      exact absurd h (by simp)

/-- C20 witness: in `twoRowExample` row 1 (confidence 0.6) is left out; its
box coincides with that of the returned detection of confidence 0.9. -/
theorem getDetections_removed_covered_witness :
    getDetections twoRowExample ⟨1280, 960⟩ (1 / 4) (f32Q (9 / 20)) 640 640 true =
      some [⟨0, f32Q (9 / 10), ⟨512, 384, 256, 192⟩⟩] ∧
    ∃ rd : List (Nat × Detection),
      rd.map Prod.snd = [⟨0, f32Q (9 / 10), ⟨512, 384, 256, 192⟩⟩] ∧
      (∀ p ∈ rd, p.1 < 2 ∧
        (rowCandidate ⟨2, 6, fun i j => twoRowExample.data (i * 6 + j)⟩ ⟨1280, 960⟩ (1 / 4)
          (scaleOf 1280 640) (scaleOf 960 640)
          true p.1).map Candidate.toDetection = some p.2) ∧
      ∀ i c, i < 2 →
        rowCandidate ⟨2, 6, fun i j => twoRowExample.data (i * 6 + j)⟩ ⟨1280, 960⟩ (1 / 4)
          (scaleOf 1280 640) (scaleOf 960 640)
          true i = some c →
        1 / 4 < c.score → (i, c.toDetection) ∉ rd →
        ∃ d ∈ [(⟨0, f32Q (9 / 10), ⟨512, 384, 256, 192⟩⟩ : Detection)],
          (rectOverlap c.box d.box).le (f32Q (9 / 20)) = false ∧ c.score ≤ d.confidence :=
  ⟨by decide!,
    getDetections_removed_covered twoRowExample
      ⟨2, 6, fun i j => twoRowExample.data (i * 6 + j)⟩ ⟨1280, 960⟩ (1 / 4) (f32Q (9 / 20))
      640 640 true _ rfl (by decide) (by decide!)⟩

end YoloPost
